import Mathlib

/-!
Verification of the `deepcopy` package (recursive deep copy of runtime values).

The development shallowly embeds the package's two-file source (`Copy` and
`copyRecursive` in `deepcopy.go`; the second source file is the same algorithm
with explicit error returns instead of panic/recover — the recovery at the
`Copy` boundary turns both into the same observable function, which is what we
model).

Modelling choices, all taken from the source:

* Runtime values are the inductive `Val`.  Go's mutable storage (pointer
  targets, slice backing arrays, map tables) lives in an explicit `Heap`
  addressed by natural-number locations; `reflect.New` / `reflect.MakeSlice` /
  `reflect.MakeMap` are fresh allocations (`Heap.next` is the allocation
  counter).  Function and channel values carry an opaque identifier that is not
  a heap location: the source copies them with `cpy.Set(original)`, sharing the
  resource by design.  `time.Time` is `Val.timeV wall loc` where `loc` is the
  shared `*time.Location`; the source copies the whole struct by value.
* A type implementing the package's `Interface` (the `DeepCopy()` hook) is
  `Val.custom r`: the model carries the result that `DeepCopy()` would return —
  `Except.ok` a value, or `Except.error` a panic message (a user hook may
  panic; `Copy`'s `recover` turns that into an ordinary error).  Every node the
  traversal visits satisfies `CanInterface` (unexported fields are skipped
  before recursing), so the hook test is simply a match on this constructor.
* `callState` is `St` (`ptrLevel`, `ptrSeen`).  The Go function mutates one
  shared state; the embedding threads it explicitly and encodes each `defer`
  (decrement `ptrLevel`, delete the recorded identity) on every return path.
* `copyRecursive` takes a fuel argument purely so that Lean accepts the
  definition; exhaustion is the extra error `CopyErr.outOfFuel`, and
  `Copy_nofuel` proves the fuel `Copy` supplies can never run out (the depth
  ceiling fires first), so the fuel is invisible from `Copy`.
* Errors are `CopyErr`; the two `deepCopyError` kinds carry the offending
  node (the source formats its type into the message).
* The source writes copies into a destination `reflect.Value` supplied by the
  caller, allocating the fresh cell (`reflect.New`, `MakeSlice`, `MakeMap`)
  and then filling it in place; the embedding returns the copied value
  instead and performs the corresponding allocation around a successful
  recursive fill.  The only difference is unreferenced garbage cells left by
  the source on error paths, which no returned value can reach.
-/

namespace DeepCopy

/-- `startDetectingCyclesAfter`: circular references are checked only once the
counter exceeds this. -/
def startDetectingCyclesAfter : Nat := 1000

/-- `maxReferenceChainLength`: hard bound on the reference chain, guarding
against stack overflow. -/
def maxReferenceChainLength : Nat := 1500

/-- Keys of `callState.ptrSeen`.  The source uses the boxed pointer for `Ptr`
nodes, a `(backing pointer, length)` pair for `Slice` nodes and the map's
backing pointer for `Map` nodes; the three have distinct dynamic types in Go,
so they can never collide and are modelled by distinct constructors.  `none`
stands for the nil pointer (`reflect.Value.Pointer` returns 0).  In Go a
pointer identity also carries the pointer's dynamic type; the model keeps the
location only, which suffices because distinct targets are distinct cells
(interior pointers do not exist in the model). -/
inductive RefId where
  | ptrId : Option Nat → RefId
  | sliceId : Option (Nat × Nat) → RefId
  | mapId : Option Nat → RefId
deriving DecidableEq, Repr

/-- A Go runtime value, classified the way `copyRecursive`'s `switch` on
`reflect.Kind` classifies it.  `ptr none` / `slice none` / `map none` /
`iface none` / `func none` / `chan none` are the nil values.  A slice is
`(backing location, length)`; its capacity is the size of the backing cell.
`struct` fields carry an exported flag (`PkgPath == ""`).  `timeV` is
`time.Time` (value, shared `*time.Location`).  `custom` is a value whose type
implements the package's `Interface`; it carries what its `DeepCopy()` call
produces (or the panic it raises). -/
inductive Val where
  | prim : Nat → Val
  | ptr : Option Nat → Val
  | slice : Option (Nat × Nat) → Val
  | array : List Val → Val
  | struct : List (Bool × Val) → Val
  | map : Option Nat → Val
  | iface : Option Val → Val
  | func : Option Nat → Val
  | chan : Option Nat → Val
  | timeV : Nat → Option Nat → Val
  | custom : Except String Val → Val

/-- Mutable backing storage: a pointer target, a slice backing array, or a
map's key/value table. -/
inductive Cell where
  | cell : Val → Cell
  | cells : List Val → Cell
  | table : List (Val × Val) → Cell

/-- The heap: an allocation counter and the allocated cells. -/
structure Heap where
  next : Nat
  mem : List (Nat × Cell)

/-- Read the cell at location `l`. -/
def lookupC (h : Heap) (l : Nat) : Option Cell :=
  (h.mem.find? (fun e => e.1 == l)).map (fun e => e.2)

/-- Allocate a fresh cell (`reflect.New` / `MakeSlice` / `MakeMap`). -/
def alloc (h : Heap) (c : Cell) : Nat × Heap :=
  (h.next, ⟨h.next + 1, (h.next, c) :: h.mem⟩)

/-- `callState` from the source. -/
structure St where
  ptrLevel : Nat
  ptrSeen : List RefId
deriving DecidableEq, Repr

/-- The failures `Copy` can return: the two `deepCopyError` kinds (carrying
the node whose type the message names), a recovered panic from a user hook,
and the fuel sentinel (proved unreachable from `Copy`). -/
inductive CopyErr where
  | chainTooLong : Val → CopyErr
  | circularRef : Val → CopyErr
  | panicked : String → CopyErr
  | outOfFuel : CopyErr

mutual
/-- The zero value of (the type of) a value: what `reflect.New(T).Elem()`
holds, used for skipped unexported fields and the uncopied tail of a slice's
capacity.  The zero value of a hook-implementing type still implements the
hook; the model cannot derive its `DeepCopy` behaviour from a value, so the
carried hook result is kept. -/
def zeroOf : Val → Val
  | .prim _ => .prim 0
  | .ptr _ => .ptr none
  | .slice _ => .slice none
  | .array vs => .array (zeroList vs)
  | .struct fs => .struct (zeroFields fs)
  | .map _ => .map none
  | .iface _ => .iface none
  | .func _ => .func none
  | .chan _ => .chan none
  | .timeV _ _ => .timeV 0 none
  | .custom r => .custom r

def zeroList : List Val → List Val
  | [] => []
  | v :: vs => zeroOf v :: zeroList vs

def zeroFields : List (Bool × Val) → List (Bool × Val)
  | [] => []
  | f :: fs => (f.1, zeroOf f.2) :: zeroFields fs
end

/-- Shorthand for the result triple of one recursive call. -/
abbrev CRes := Except CopyErr Val × St × Heap

/-- The `for i := 0; i < original.Len(); i++` loop over slice/array elements:
copy each element in index order, aborting on the first failure. -/
def copyList (copy : Val → St → Heap → CRes) :
    List Val → St → Heap → Except CopyErr (List Val) × St × Heap
  | [], st, h => (.ok [], st, h)
  | v :: vs, st, h =>
    match copy v st h with
    | (.error e, st', h') => (.error e, st', h')
    | (.ok c, st', h') =>
      match copyList copy vs st' h' with
      | (.error e, st'', h'') => (.error e, st'', h'')
      | (.ok cs, st'', h'') => (.ok (c :: cs), st'', h'')

/-- The loop over struct fields, in declared order: a field with a non-empty
`PkgPath` (unexported) is skipped entirely — the destination keeps the zero
value `reflect.New` gave it; an exported field is copied recursively. -/
def copyFields (copy : Val → St → Heap → CRes) :
    List (Bool × Val) → St → Heap → Except CopyErr (List (Bool × Val)) × St × Heap
  | [], st, h => (.ok [], st, h)
  | (exported, v) :: fs, st, h =>
    if exported then
      match copy v st h with
      | (.error e, st', h') => (.error e, st', h')
      | (.ok c, st', h') =>
        match copyFields copy fs st' h' with
        | (.error e, st'', h'') => (.error e, st'', h'')
        | (.ok cs, st'', h'') => (.ok ((true, c) :: cs), st'', h'')
    else
      match copyFields copy fs st h with
      | (.error e, st', h') => (.error e, st', h')
      | (.ok cs, st', h') => (.ok ((false, zeroOf v) :: cs), st', h')

/-- The `for _, key := range original.MapKeys()` loop: for each entry the
value is copied first, then the key (the source's order), both into fresh
slots. -/
def copyPairs (copy : Val → St → Heap → CRes) :
    List (Val × Val) → St → Heap → Except CopyErr (List (Val × Val)) × St × Heap
  | [], st, h => (.ok [], st, h)
  | (k, v) :: ps, st, h =>
    match copy v st h with
    | (.error e, st', h') => (.error e, st', h')
    | (.ok cv, st', h') =>
      match copy k st' h' with
      | (.error e, st'', h'') => (.error e, st'', h'')
      | (.ok ck, st'', h'') =>
        match copyPairs copy ps st'' h'' with
        | (.error e, st3, h3) => (.error e, st3, h3)
        | (.ok cs, st3, h3) => (.ok ((ck, cv) :: cs), st3, h3)

/-- Body of the `reflect.Ptr` case after the cycle guard: a nil pointer's
target is not `IsValid`, so the destination stays nil; otherwise a fresh
target is allocated (`cpy.Set(reflect.New(...))`) and filled recursively. -/
def ptrTarget (copy : Val → St → Heap → CRes) (op : Option Nat) (st : St) (h : Heap) : CRes :=
  match op with
  | none => (.ok (.ptr none), st, h)
  | some l =>
    match lookupC h l with
    | some (.cell w) =>
      match copy w st h with
      | (.error e, st', h') => (.error e, st', h')
      | (.ok cw, st', h') =>
        let a := alloc h' (.cell cw)
        (.ok (.ptr (some a.1)), st', a.2)
    | _ => (.error (.panicked "invalid heap reference"), st, h)

/-- Body of the `reflect.Slice` case after the cycle guard: nil stays nil;
otherwise `reflect.MakeSlice` allocates a fresh backing array of the same
length and capacity (elements beyond the length are zero values) and the
first `Len` elements are copied in index order. -/
def sliceBacking (copy : Val → St → Heap → CRes) (os : Option (Nat × Nat)) (st : St) (h : Heap) : CRes :=
  match os with
  | none => (.ok (.slice none), st, h)
  | some (l, len) =>
    match lookupC h l with
    | some (.cells bs) =>
      match copyList copy (bs.take len) st h with
      | (.error e, st', h') => (.error e, st', h')
      | (.ok cs, st', h') =>
        let a := alloc h' (.cells (cs ++ zeroList (bs.drop len)))
        (.ok (.slice (some (a.1, len))), st', a.2)
    | _ => (.error (.panicked "invalid heap reference"), st, h)

/-- Body of the `reflect.Map` case after the cycle guard: nil stays nil;
otherwise `reflect.MakeMap` allocates a fresh table which is filled entry by
entry. -/
def mapTable (copy : Val → St → Heap → CRes) (om : Option Nat) (st : St) (h : Heap) : CRes :=
  match om with
  | none => (.ok (.map none), st, h)
  | some l =>
    match lookupC h l with
    | some (.table ps) =>
      match copyPairs copy ps st h with
      | (.error e, st', h') => (.error e, st', h')
      | (.ok ps', st', h') =>
        let a := alloc h' (.table ps')
        (.ok (.map (some a.1)), st', a.2)
    | _ => (.error (.panicked "invalid heap reference"), st, h)

/-- One invocation of `copyRecursive` after `state.ptrLevel++` (so
`st.ptrLevel` here is the incremented level): the depth-ceiling check, the
`Interface` hook check, then the `switch` on the node's kind.  The cycle guard
of the `Ptr`, `Slice` and `Map` cases records the node's reference identity
once the level exceeds `startDetectingCyclesAfter` and the matching
`defer delete(state.ptrSeen, ptr)` is encoded by erasing it from the returned
state.  `prim`, `func` and `chan` fall to the `default` branch,
`cpy.Set(original)`. -/
def copyBody (copy : Val → St → Heap → CRes) (original : Val) (st : St) (h : Heap) : CRes :=
  if st.ptrLevel > maxReferenceChainLength then
    (.error (.chainTooLong original), st, h)
  else
    match original with
    | .custom res =>
      match res with
      | .ok r => (.ok r, st, h)
      | .error s => (.error (.panicked s), st, h)
    | .ptr op =>
      let pid := RefId.ptrId op
      if startDetectingCyclesAfter < st.ptrLevel then
        if pid ∈ st.ptrSeen then (.error (.circularRef (.ptr op)), st, h)
        else
          match ptrTarget copy op ⟨st.ptrLevel, pid :: st.ptrSeen⟩ h with
          | (r, st', h') => (r, ⟨st'.ptrLevel, st'.ptrSeen.erase pid⟩, h')
      else ptrTarget copy op st h
    | .iface ov =>
      match ov with
      | none => (.ok (.iface none), st, h)
      | some w =>
        match copy w st h with
        | (.error e, st', h') => (.error e, st', h')
        | (.ok cw, st', h') => (.ok (.iface (some cw)), st', h')
    | .timeV t loc => (.ok (.timeV t loc), st, h)
    | .struct fs =>
      match copyFields copy fs st h with
      | (.error e, st', h') => (.error e, st', h')
      | (.ok fs', st', h') => (.ok (.struct fs'), st', h')
    | .slice os =>
      let sid := RefId.sliceId os
      if startDetectingCyclesAfter < st.ptrLevel then
        if sid ∈ st.ptrSeen then (.error (.circularRef (.slice os)), st, h)
        else
          match sliceBacking copy os ⟨st.ptrLevel, sid :: st.ptrSeen⟩ h with
          | (r, st', h') => (r, ⟨st'.ptrLevel, st'.ptrSeen.erase sid⟩, h')
      else sliceBacking copy os st h
    | .array vs =>
      match copyList copy vs st h with
      | (.error e, st', h') => (.error e, st', h')
      | (.ok cs, st', h') => (.ok (.array cs), st', h')
    | .map om =>
      let mid := RefId.mapId om
      if startDetectingCyclesAfter < st.ptrLevel then
        if mid ∈ st.ptrSeen then (.error (.circularRef (.map om)), st, h)
        else
          match mapTable copy om ⟨st.ptrLevel, mid :: st.ptrSeen⟩ h with
          | (r, st', h') => (r, ⟨st'.ptrLevel, st'.ptrSeen.erase mid⟩, h')
      else mapTable copy om st h
    | v => (.ok v, st, h)

/-- `copyRecursive`.  The first argument is fuel (see the header comment); the
body increments `state.ptrLevel` on entry and the `defer` decrements it on
every exit path. -/
def copyRecursive : Nat → Val → St → Heap → CRes
  | 0, _, st, h => (.error .outOfFuel, st, h)
  | fuel + 1, original, st, h =>
    match copyBody (copyRecursive fuel) original ⟨st.ptrLevel + 1, st.ptrSeen⟩ h with
    | (r, st', h') => (r, ⟨st'.ptrLevel - 1, st'.ptrSeen⟩, h')

/-- Fuel with which `Copy` runs the recursion: enough that the depth ceiling
always fires first (`copy_no_fuel_exhaustion`). -/
def copyFuel : Nat := maxReferenceChainLength + 2

/-- `Copy`: nil in, nil out; otherwise allocate a zero destination of the
source's type, run `copyRecursive` with a fresh `callState` and surface any
failure (panic or returned error) as the error result, returning no copy. -/
def Copy (src : Option Val) (h : Heap) : Except CopyErr (Option Val) × Heap :=
  match src with
  | none => (.ok none, h)
  | some v =>
    match copyRecursive copyFuel v ⟨0, []⟩ h with
    | (.ok c, _, h') => (.ok (some c), h')
    | (.error e, _, h') => (.error e, h')

/-- Every helper restores `ptrLevel` and `ptrSeen`: the element loop. -/
theorem copyList_state (copy : Val → St → Heap → CRes)
    (hc : ∀ v st h, (copy v st h).2.1 = st) :
    ∀ vs st h, (copyList copy vs st h).2.1 = st := by
  intro vs
  induction vs with
  | nil => intro st h; rfl
  | cons v vs ih =>
    intro st h
    simp only [copyList]
    split
    · next e st' h' heq =>
      have := hc v st h
      rw [heq] at this
      exact this
    · next c st' h' heq =>
      have h1 := hc v st h
      rw [heq] at h1
      split
      · next e st2 h2 heq2 =>
        have h2' := ih st' h'
        rw [heq2] at h2'
        exact h2'.trans h1
      · next cs st2 h2 heq2 =>
        have h2' := ih st' h'
        rw [heq2] at h2'
        exact h2'.trans h1

/-- Every helper restores the state: the struct-field loop. -/
theorem copyFields_state (copy : Val → St → Heap → CRes)
    (hc : ∀ v st h, (copy v st h).2.1 = st) :
    ∀ fs st h, (copyFields copy fs st h).2.1 = st := by
  intro fs
  induction fs with
  | nil => intro st h; rfl
  | cons f fs ih =>
    intro st h
    obtain ⟨exported, v⟩ := f
    simp only [copyFields]
    by_cases hb : exported = true
    · simp only [hb, if_true]
      split
      · next e st' h' heq =>
        have h1 := hc v st h
        rw [heq] at h1
        exact h1
      · next c st' h' heq =>
        have h1 := hc v st h
        rw [heq] at h1
        split
        · next e st2 h2 heq2 =>
          have h2' := ih st' h'
          rw [heq2] at h2'
          exact h2'.trans h1
        · next cs st2 h2 heq2 =>
          have h2' := ih st' h'
          rw [heq2] at h2'
          exact h2'.trans h1
    · simp only [hb, if_false, Bool.false_eq_true]
      split
      · next e st' h' heq =>
        have h1 := ih st h
        rw [heq] at h1
        exact h1
      · next cs st' h' heq =>
        have h1 := ih st h
        rw [heq] at h1
        exact h1

/-- Every helper restores the state: the map-entry loop. -/
theorem copyPairs_state (copy : Val → St → Heap → CRes)
    (hc : ∀ v st h, (copy v st h).2.1 = st) :
    ∀ ps st h, (copyPairs copy ps st h).2.1 = st := by
  intro ps
  induction ps with
  | nil => intro st h; rfl
  | cons p ps ih =>
    intro st h
    obtain ⟨k, v⟩ := p
    simp only [copyPairs]
    split
    · next e st' h' heq =>
      have h1 := hc v st h
      rw [heq] at h1
      exact h1
    · next cv st' h' heq =>
      have h1 := hc v st h
      rw [heq] at h1
      split
      · next e st2 h2 heq2 =>
        have h2' := hc k st' h'
        rw [heq2] at h2'
        exact h2'.trans h1
      · next ck st2 h2 heq2 =>
        have h2' := hc k st' h'
        rw [heq2] at h2'
        split
        · next e st3 h3 heq3 =>
          have h3' := ih st2 h2
          rw [heq3] at h3'
          exact (h3'.trans h2').trans h1
        · next cs st3 h3 heq3 =>
          have h3' := ih st2 h2
          rw [heq3] at h3'
          exact (h3'.trans h2').trans h1

/-- The pointer-target helper restores the state. -/
theorem ptrTarget_state (copy : Val → St → Heap → CRes)
    (hc : ∀ v st h, (copy v st h).2.1 = st) :
    ∀ op st h, (ptrTarget copy op st h).2.1 = st := by
  intro op st h
  match op with
  | none => rfl
  | some l =>
    simp only [ptrTarget]
    split
    · next w heq =>
      split
      · next e st' h' heq2 =>
        have h1 := hc w st h
        rw [heq2] at h1
        exact h1
      · next cw st' h' heq2 =>
        have h1 := hc w st h
        rw [heq2] at h1
        exact h1
    · next heq => rfl

/-- The slice-backing helper restores the state. -/
theorem sliceBacking_state (copy : Val → St → Heap → CRes)
    (hc : ∀ v st h, (copy v st h).2.1 = st) :
    ∀ os st h, (sliceBacking copy os st h).2.1 = st := by
  intro os st h
  match os with
  | none => rfl
  | some (l, len) =>
    simp only [sliceBacking]
    split
    · next bs heq =>
      split
      · next e st' h' heq2 =>
        have h1 := copyList_state copy hc (bs.take len) st h
        rw [heq2] at h1
        exact h1
      · next cs st' h' heq2 =>
        have h1 := copyList_state copy hc (bs.take len) st h
        rw [heq2] at h1
        exact h1
    · next heq => rfl

/-- The map-table helper restores the state. -/
theorem mapTable_state (copy : Val → St → Heap → CRes)
    (hc : ∀ v st h, (copy v st h).2.1 = st) :
    ∀ om st h, (mapTable copy om st h).2.1 = st := by
  intro om st h
  match om with
  | none => rfl
  | some l =>
    simp only [mapTable]
    split
    · next ps heq =>
      split
      · next e st' h' heq2 =>
        have h1 := copyPairs_state copy hc ps st h
        rw [heq2] at h1
        exact h1
      · next ps' st' h' heq2 =>
        have h1 := copyPairs_state copy hc ps st h
        rw [heq2] at h1
        exact h1
    · next heq => rfl

/-- The guarded sections of the `Ptr`, `Slice` and `Map` cases restore the
state: the recorded identity is erased again on exit.  Stated for any inner
operation that itself restores the state. -/
theorem guard_erase_state (inner : St → Heap → CRes)
    (hi : ∀ st h, (inner st h).2.1 = st) (pid : RefId) (st : St) (h : Heap) :
    (match inner ⟨st.ptrLevel, pid :: st.ptrSeen⟩ h with
      | (r, st', h') => (r, (⟨st'.ptrLevel, st'.ptrSeen.erase pid⟩ : St), h')).2.1 = st := by
  split
  · next r st' h' heq =>
    have h1 := hi ⟨st.ptrLevel, pid :: st.ptrSeen⟩ h
    rw [heq] at h1
    have h2 : st' = ⟨st.ptrLevel, pid :: st.ptrSeen⟩ := h1
    rw [h2]
    simp only [List.erase_cons_head]

/-- `copyBody` hands back exactly the state it received (given that the
recursive calls it makes do the same): each `defer delete(state.ptrSeen, ptr)`
removes exactly what was added. -/
theorem copyBody_state (copy : Val → St → Heap → CRes)
    (hc : ∀ v st h, (copy v st h).2.1 = st) :
    ∀ v st h, (copyBody copy v st h).2.1 = st := by
  intro v st h
  simp only [copyBody]
  split
  · rfl
  · match v with
    | .prim n => rfl
    | .func o => rfl
    | .chan o => rfl
    | .timeV t loc => rfl
    | .custom res =>
      match res with
      | .ok r => rfl
      | .error s => rfl
    | .iface ov =>
      match ov with
      | none => rfl
      | some w =>
        simp only
        split
        · next e st' h' heq =>
          have h1 := hc w st h
          rw [heq] at h1
          exact h1
        · next cw st' h' heq =>
          have h1 := hc w st h
          rw [heq] at h1
          exact h1
    | .struct fs =>
      simp only
      split
      · next e st' h' heq =>
        have h1 := copyFields_state copy hc fs st h
        rw [heq] at h1
        exact h1
      · next cs st' h' heq =>
        have h1 := copyFields_state copy hc fs st h
        rw [heq] at h1
        exact h1
    | .array vs =>
      simp only
      split
      · next e st' h' heq =>
        have h1 := copyList_state copy hc vs st h
        rw [heq] at h1
        exact h1
      · next cs st' h' heq =>
        have h1 := copyList_state copy hc vs st h
        rw [heq] at h1
        exact h1
    | .ptr op =>
      simp only
      split
      · split
        · rfl
        · exact guard_erase_state (ptrTarget copy op)
            (fun st h => ptrTarget_state copy hc op st h) _ st h
      · exact ptrTarget_state copy hc op st h
    | .slice os =>
      simp only
      split
      · split
        · rfl
        · exact guard_erase_state (sliceBacking copy os)
            (fun st h => sliceBacking_state copy hc os st h) _ st h
      · exact sliceBacking_state copy hc os st h
    | .map om =>
      simp only
      split
      · split
        · rfl
        · exact guard_erase_state (mapTable copy om)
            (fun st h => mapTable_state copy hc om st h) _ st h
      · exact mapTable_state copy hc om st h

/-- `copyRecursive` restores the traversal state on every path: the level is
incremented on entry and decremented on exit, and every recorded identity is
erased on exit, so the caller's `callState` is exactly what it was. -/
theorem state_restored : ∀ fuel v st h, (copyRecursive fuel v st h).2.1 = st := by
  intro fuel
  induction fuel with
  | zero => intro v st h; rfl
  | succ fuel ih =>
    intro v st h
    simp only [copyRecursive]
    have h1 := copyBody_state (copyRecursive fuel) ih v ⟨st.ptrLevel + 1, st.ptrSeen⟩ h
    rw [h1]
    simp only [Nat.add_sub_cancel]

/-- An error result keeps being the same error when re-wrapped at another
result type. -/
theorem error_ne_ofu {α β : Type} {e : CopyErr}
    (h : (Except.error e : Except CopyErr α) ≠ Except.error CopyErr.outOfFuel) :
    (Except.error e : Except CopyErr β) ≠ Except.error CopyErr.outOfFuel :=
  fun hcon => h (by rw [Except.error.inj hcon])

/-- The element loop cannot exhaust fuel if no single copy at this level can. -/
theorem copyList_nofuel (copy : Val → St → Heap → CRes) (L : Nat)
    (hst : ∀ v st h, (copy v st h).2.1 = st)
    (hc : ∀ v st h, st.ptrLevel = L → (copy v st h).1 ≠ .error .outOfFuel) :
    ∀ vs st h, st.ptrLevel = L → (copyList copy vs st h).1 ≠ .error .outOfFuel := by
  intro vs
  induction vs with
  | nil => intro st h _ hcon; exact Except.noConfusion hcon
  | cons v vs ih =>
    intro st h hL
    simp only [copyList]
    split
    · next e st' h' heq =>
      have h1 := hc v st h hL
      rw [heq] at h1
      exact error_ne_ofu h1
    · next c st' h' heq =>
      have h1 := hst v st h
      rw [heq] at h1
      have hst' : st' = st := h1
      have hL' : st'.ptrLevel = L := by rw [hst']; exact hL
      split
      · next e st2 h2 heq2 =>
        have h2' := ih st' h' hL'
        rw [heq2] at h2'
        exact h2'
      · next cs st2 h2 heq2 =>
        intro hcon
        exact Except.noConfusion hcon

/-- The struct-field loop cannot exhaust fuel if no field copy can. -/
theorem copyFields_nofuel (copy : Val → St → Heap → CRes) (L : Nat)
    (hst : ∀ v st h, (copy v st h).2.1 = st)
    (hc : ∀ v st h, st.ptrLevel = L → (copy v st h).1 ≠ .error .outOfFuel) :
    ∀ fs st h, st.ptrLevel = L → (copyFields copy fs st h).1 ≠ .error .outOfFuel := by
  intro fs
  induction fs with
  | nil => intro st h _ hcon; exact Except.noConfusion hcon
  | cons f fs ih =>
    intro st h hL
    obtain ⟨exported, v⟩ := f
    simp only [copyFields]
    by_cases hb : exported = true
    · simp only [hb, if_true]
      split
      · next e st' h' heq =>
        have h1 := hc v st h hL
        rw [heq] at h1
        exact error_ne_ofu h1
      · next c st' h' heq =>
        have h1 := hst v st h
        rw [heq] at h1
        have hst' : st' = st := h1
        have hL' : st'.ptrLevel = L := by rw [hst']; exact hL
        split
        · next e st2 h2 heq2 =>
          have h2' := ih st' h' hL'
          rw [heq2] at h2'
          exact h2'
        · next cs st2 h2 heq2 =>
          intro hcon
          exact Except.noConfusion hcon
    · simp only [hb, if_false, Bool.false_eq_true]
      split
      · next e st' h' heq =>
        have h1 := ih st h hL
        rw [heq] at h1
        exact h1
      · next cs st' h' heq =>
        intro hcon
        exact Except.noConfusion hcon

/-- The map-entry loop cannot exhaust fuel if no key/value copy can. -/
theorem copyPairs_nofuel (copy : Val → St → Heap → CRes) (L : Nat)
    (hst : ∀ v st h, (copy v st h).2.1 = st)
    (hc : ∀ v st h, st.ptrLevel = L → (copy v st h).1 ≠ .error .outOfFuel) :
    ∀ ps st h, st.ptrLevel = L → (copyPairs copy ps st h).1 ≠ .error .outOfFuel := by
  intro ps
  induction ps with
  | nil => intro st h _ hcon; exact Except.noConfusion hcon
  | cons p ps ih =>
    intro st h hL
    obtain ⟨k, v⟩ := p
    simp only [copyPairs]
    split
    · next e st' h' heq =>
      have h1 := hc v st h hL
      rw [heq] at h1
      exact error_ne_ofu h1
    · next cv st' h' heq =>
      have h1 := hst v st h
      rw [heq] at h1
      have hst1 : st' = st := h1
      have hL' : st'.ptrLevel = L := by rw [hst1]; exact hL
      split
      · next e st2 hp2 heq2 =>
        have h2' := hc k st' h' hL'
        rw [heq2] at h2'
        exact error_ne_ofu h2'
      · next ck st2 hp2 heq2 =>
        have hq := hst k st' h'
        rw [heq2] at hq
        have hst2 : st2 = st' := hq
        have hL2 : st2.ptrLevel = L := by rw [hst2]; exact hL'
        split
        · next e st3 hp3 heq3 =>
          have h3' := ih st2 hp2 hL2
          rw [heq3] at h3'
          exact h3'
        · next cs st3 hp3 heq3 =>
          intro hcon
          exact Except.noConfusion hcon

/-- The pointer-target helper cannot exhaust fuel if the recursive copy
cannot. -/
theorem ptrTarget_nofuel (copy : Val → St → Heap → CRes) (L : Nat)
    (hc : ∀ v st h, st.ptrLevel = L → (copy v st h).1 ≠ .error .outOfFuel) :
    ∀ op st h, st.ptrLevel = L → (ptrTarget copy op st h).1 ≠ .error .outOfFuel := by
  intro op st h hL
  match op with
  | none => intro hcon; exact Except.noConfusion hcon
  | some l =>
    simp only [ptrTarget]
    split
    · next w heq =>
      split
      · next e st' h' heq2 =>
        have h1 := hc w st h hL
        rw [heq2] at h1
        exact h1
      · next cw st' h' heq2 =>
        intro hcon
        exact Except.noConfusion hcon
    · next heq =>
      intro hcon
      have := Except.error.inj hcon
      exact CopyErr.noConfusion this

/-- The slice-backing helper cannot exhaust fuel if no element copy can. -/
theorem sliceBacking_nofuel (copy : Val → St → Heap → CRes) (L : Nat)
    (hst : ∀ v st h, (copy v st h).2.1 = st)
    (hc : ∀ v st h, st.ptrLevel = L → (copy v st h).1 ≠ .error .outOfFuel) :
    ∀ os st h, st.ptrLevel = L → (sliceBacking copy os st h).1 ≠ .error .outOfFuel := by
  intro os st h hL
  match os with
  | none => intro hcon; exact Except.noConfusion hcon
  | some pr =>
    obtain ⟨l, len⟩ := pr
    simp only [sliceBacking]
    split
    · next bs heq =>
      split
      · next e st' h' heq2 =>
        have h1 := copyList_nofuel copy L hst hc (bs.take len) st h hL
        rw [heq2] at h1
        exact error_ne_ofu h1
      · next cs st' h' heq2 =>
        intro hcon
        exact Except.noConfusion hcon
    · next heq =>
      intro hcon
      have := Except.error.inj hcon
      exact CopyErr.noConfusion this

/-- The map-table helper cannot exhaust fuel if no entry copy can. -/
theorem mapTable_nofuel (copy : Val → St → Heap → CRes) (L : Nat)
    (hst : ∀ v st h, (copy v st h).2.1 = st)
    (hc : ∀ v st h, st.ptrLevel = L → (copy v st h).1 ≠ .error .outOfFuel) :
    ∀ om st h, st.ptrLevel = L → (mapTable copy om st h).1 ≠ .error .outOfFuel := by
  intro om st h hL
  match om with
  | none => intro hcon; exact Except.noConfusion hcon
  | some l =>
    simp only [mapTable]
    split
    · next ps heq =>
      split
      · next e st' h' heq2 =>
        have h1 := copyPairs_nofuel copy L hst hc ps st h hL
        rw [heq2] at h1
        exact error_ne_ofu h1
      · next ps' st' h' heq2 =>
        intro hcon
        exact Except.noConfusion hcon
    · next heq =>
      intro hcon
      have := Except.error.inj hcon
      exact CopyErr.noConfusion this

/-- `copyBody` cannot produce the fuel sentinel itself: only a recursive call
could, and every recursive call happens only below the depth ceiling. -/
theorem copyBody_nofuel (copy : Val → St → Heap → CRes)
    (hst : ∀ v st h, (copy v st h).2.1 = st) :
    ∀ v st h,
      (∀ v' st' h', st'.ptrLevel = st.ptrLevel →
        st.ptrLevel ≤ maxReferenceChainLength → (copy v' st' h').1 ≠ .error .outOfFuel) →
      (copyBody copy v st h).1 ≠ .error .outOfFuel := by
  intro v st h hc
  simp only [copyBody]
  split
  · next hgt =>
    intro hcon
    have := Except.error.inj hcon
    exact CopyErr.noConfusion this
  · next hle =>
    have hlev : st.ptrLevel ≤ maxReferenceChainLength := Nat.le_of_not_lt hle
    have hc' : ∀ v' st' h', st'.ptrLevel = st.ptrLevel → (copy v' st' h').1 ≠ .error .outOfFuel :=
      fun v' st' h' he => hc v' st' h' he hlev
    match v with
    | .prim n => intro hcon; exact Except.noConfusion hcon
    | .func o => intro hcon; exact Except.noConfusion hcon
    | .chan o => intro hcon; exact Except.noConfusion hcon
    | .timeV t loc => intro hcon; exact Except.noConfusion hcon
    | .custom res =>
      match res with
      | .ok r => intro hcon; exact Except.noConfusion hcon
      | .error s =>
        intro hcon
        have := Except.error.inj hcon
        exact CopyErr.noConfusion this
    | .iface ov =>
      match ov with
      | none => intro hcon; exact Except.noConfusion hcon
      | some w =>
        simp only
        split
        · next e st' h' heq =>
          have h1 := hc' w st h rfl
          rw [heq] at h1
          exact h1
        · next cw st' h' heq =>
          intro hcon
          exact Except.noConfusion hcon
    | .struct fs =>
      simp only
      split
      · next e st' h' heq =>
        have h1 := copyFields_nofuel copy st.ptrLevel hst hc' fs st h rfl
        rw [heq] at h1
        exact error_ne_ofu h1
      · next cs st' h' heq =>
        intro hcon
        exact Except.noConfusion hcon
    | .array vs =>
      simp only
      split
      · next e st' h' heq =>
        have h1 := copyList_nofuel copy st.ptrLevel hst hc' vs st h rfl
        rw [heq] at h1
        exact error_ne_ofu h1
      · next cs st' h' heq =>
        intro hcon
        exact Except.noConfusion hcon
    | .ptr op =>
      simp only
      split
      · split
        · intro hcon
          have := Except.error.inj hcon
          exact CopyErr.noConfusion this
        · exact ptrTarget_nofuel copy st.ptrLevel hc' op ⟨st.ptrLevel, _ :: st.ptrSeen⟩ h rfl
      · exact ptrTarget_nofuel copy st.ptrLevel hc' op st h rfl
    | .slice os =>
      simp only
      split
      · split
        · intro hcon
          have := Except.error.inj hcon
          exact CopyErr.noConfusion this
        · exact sliceBacking_nofuel copy st.ptrLevel hst hc' os ⟨st.ptrLevel, _ :: st.ptrSeen⟩ h rfl
      · exact sliceBacking_nofuel copy st.ptrLevel hst hc' os st h rfl
    | .map om =>
      simp only
      split
      · split
        · intro hcon
          have := Except.error.inj hcon
          exact CopyErr.noConfusion this
        · exact mapTable_nofuel copy st.ptrLevel hst hc' om ⟨st.ptrLevel, _ :: st.ptrSeen⟩ h rfl
      · exact mapTable_nofuel copy st.ptrLevel hst hc' om st h rfl

/-- With fuel at least `maxReferenceChainLength + 2 - ptrLevel`, the fuel
sentinel is unreachable: the depth ceiling always fires first. -/
theorem copyRecursive_nofuel :
    ∀ fuel v st h, maxReferenceChainLength + 2 ≤ st.ptrLevel + fuel →
      st.ptrLevel ≤ maxReferenceChainLength →
      (copyRecursive fuel v st h).1 ≠ .error .outOfFuel := by
  intro fuel
  induction fuel with
  | zero =>
    intro v st h hge hle
    omega
  | succ fuel ih =>
    intro v st h hge _
    simp only [copyRecursive]
    exact copyBody_nofuel (copyRecursive fuel) (state_restored fuel) v
      ⟨st.ptrLevel + 1, st.ptrSeen⟩ h
      (fun v' st' h' heqL hle' =>
        ih v' st' h' (by simp only [heqL]; omega) (by rw [heqL]; exact hle'))

/-- `Copy` never surfaces the fuel sentinel: its fixed fuel outlasts the depth
ceiling, so the recursion always terminates with a genuine result. -/
theorem Copy_nofuel : ∀ src h, (Copy src h).1 ≠ .error .outOfFuel := by
  intro src h
  match src with
  | none => intro hcon; exact Except.noConfusion hcon
  | some v =>
    simp only [Copy]
    have h1 := copyRecursive_nofuel copyFuel v ⟨0, []⟩ h
      (by simp [copyFuel]) (by simp [maxReferenceChainLength])
    split
    · next c st' h' heq =>
      intro hcon
      exact Except.noConfusion hcon
    · next e st' h' heq =>
      rw [heq] at h1
      exact error_ne_ofu h1

/-- A chain of `n` interface wrappers around an integer: `nestIface n` has
`n + 1` nodes on its single path (each interface unwrap is one `copyRecursive`
call, as is the final integer). -/
def nestIface : Nat → Val
  | 0 => .prim 0
  | k + 1 => .iface (some (nestIface k))

/-- Entering `copyRecursive` with the level already at the ceiling fails
immediately with the Chain-Too-Long error carrying the node being processed,
before the custom hook or any other logic runs. -/
theorem chain_ceiling (fuel : Nat) (v : Val) (st : St) (h : Heap)
    (hlev : maxReferenceChainLength ≤ st.ptrLevel) :
    copyRecursive (fuel + 1) v st h = (.error (.chainTooLong v), st, h) := by
  simp only [copyRecursive, copyBody]
  rw [if_pos (by omega)]
  simp only [Nat.add_sub_cancel]

/-- A nested-interface chain whose deepest node stays at or below the ceiling
is copied successfully, leaving state and heap untouched. -/
theorem nest_ok : ∀ n fuel L seen h, n + 1 ≤ fuel →
    L + n + 1 ≤ maxReferenceChainLength →
    copyRecursive fuel (nestIface n) ⟨L, seen⟩ h = (.ok (nestIface n), ⟨L, seen⟩, h) := by
  intro n
  induction n with
  | zero =>
    intro fuel L seen h hfuel hlev
    match fuel, hfuel with
    | f + 1, _ =>
      simp only [nestIface, copyRecursive, copyBody]
      rw [if_neg (by simp only [maxReferenceChainLength] at hlev ⊢; omega)]
      simp only [Nat.add_sub_cancel]
  | succ n ih =>
    intro fuel L seen h hfuel hlev
    match fuel, hfuel with
    | f + 1, _ =>
      simp only [nestIface, copyRecursive, copyBody]
      rw [if_neg (by simp only [maxReferenceChainLength] at hlev ⊢; omega)]
      have hin := ih f (L + 1) seen h (by omega) (by omega)
      simp only [nestIface] at hin
      simp only [hin, Nat.add_sub_cancel]
  
/-- A nested-interface chain reaching past the ceiling fails with
Chain-Too-Long at the node that crosses it (the node `1500 - L` levels below
the entry). -/
theorem nest_fail : ∀ n fuel L seen h, n + 1 ≤ fuel →
    maxReferenceChainLength ≤ L + n → L ≤ maxReferenceChainLength →
    copyRecursive fuel (nestIface n) ⟨L, seen⟩ h =
      (.error (.chainTooLong (nestIface (n - (maxReferenceChainLength - L)))), ⟨L, seen⟩, h) := by
  intro n
  induction n with
  | zero =>
    intro fuel L seen h hfuel hge hle
    match fuel, hfuel with
    | f + 1, _ =>
      have hL : L = maxReferenceChainLength := by omega
      subst hL
      simp only [Nat.sub_self, Nat.sub_zero]
      exact chain_ceiling f (nestIface 0) ⟨maxReferenceChainLength, seen⟩ h (le_refl _)
  | succ n ih =>
    intro fuel L seen h hfuel hge hle
    match fuel, hfuel with
    | f + 1, _ =>
      by_cases hceil : L = maxReferenceChainLength
      · subst hceil
        simp only [Nat.sub_self, Nat.sub_zero]
        exact chain_ceiling f (nestIface (n + 1)) ⟨maxReferenceChainLength, seen⟩ h (le_refl _)
      · have hlt : L < maxReferenceChainLength := lt_of_le_of_ne hle hceil
        simp only [nestIface, copyRecursive, copyBody]
        rw [if_neg (by omega)]
        have hin := ih f (L + 1) seen h (by omega) (by omega) (by omega)
        have harith : n - (maxReferenceChainLength - (L + 1)) =
            n + 1 - (maxReferenceChainLength - L) := by omega
        rw [harith] at hin
        simp only [hin, Nat.add_sub_cancel]

/-- `Copy` succeeds on a structure whose nodes sit exactly at the ceiling:
`nestIface 1499` has 1500 nodes on its path. -/
theorem Copy_nest_at_ceiling (h : Heap) :
    Copy (some (nestIface 1499)) h = (.ok (some (nestIface 1499)), h) := by
  simp only [Copy]
  rw [nest_ok 1499 copyFuel 0 [] h
    (by simp only [copyFuel, maxReferenceChainLength]; omega)
    (by simp only [maxReferenceChainLength]; omega)]

/-- `Copy` fails with Chain-Too-Long on a structure nested one level past the
ceiling: `nestIface 1500` has 1501 nodes, and the failing node is the
innermost integer. -/
theorem Copy_nest_beyond (h : Heap) :
    Copy (some (nestIface 1500)) h = (.error (.chainTooLong (.prim 0)), h) := by
  simp only [Copy]
  rw [nest_fail 1500 copyFuel 0 [] h
    (by simp only [copyFuel, maxReferenceChainLength]; omega)
    (by simp only [maxReferenceChainLength]; omega)
    (by simp only [maxReferenceChainLength]; omega)]
  norm_num [maxReferenceChainLength, nestIface]

/-- A pointer whose target is that pointer itself: `*T` stored at location 0
pointing back at location 0. -/
def selfPtrVal : Val := .ptr (some 0)

/-- The one-cell heap realising the self-referential pointer. -/
def selfPtrHeap : Heap := ⟨1, [(0, .cell selfPtrVal)]⟩

/-- Above the detection threshold, re-entering the self-pointer whose identity
is already recorded fails immediately with Circular-Reference. -/
theorem selfPtr_seen (fuel L : Nat) (seen : List RefId) (h : Heap)
    (hg : startDetectingCyclesAfter ≤ L) (hc : L + 1 ≤ maxReferenceChainLength)
    (hm : RefId.ptrId (some 0) ∈ seen) :
    copyRecursive (fuel + 1) selfPtrVal ⟨L, seen⟩ h =
      (.error (.circularRef selfPtrVal), ⟨L, seen⟩, h) := by
  simp only [selfPtrVal, copyRecursive, copyBody]
  rw [if_neg (by simp only [maxReferenceChainLength] at hc ⊢; omega)]
  rw [if_pos (by simp only [startDetectingCyclesAfter] at hg ⊢; omega)]
  rw [if_pos hm]
  simp only [Nat.add_sub_cancel]

/-- Step lemma: a primitive below the ceiling is copied by value
(`cpy.Set(original)`). -/
theorem step_prim (fuel n : Nat) (st : St) (h : Heap)
    (hceil : st.ptrLevel + 1 ≤ maxReferenceChainLength) :
    copyRecursive (fuel + 1) (.prim n) st h = (.ok (.prim n), st, h) := by
  have e1 : maxReferenceChainLength = 1500 := rfl
  simp only [copyRecursive, copyBody]
  rw [if_neg (by omega)]
  simp only [Nat.add_sub_cancel]

/-- Step lemma: below the ceiling the custom hook's result is used verbatim,
with no further traversal. -/
theorem step_custom_ok (fuel : Nat) (r : Val) (st : St) (h : Heap)
    (hceil : st.ptrLevel + 1 ≤ maxReferenceChainLength) :
    copyRecursive (fuel + 1) (.custom (.ok r)) st h = (.ok r, st, h) := by
  have e1 : maxReferenceChainLength = 1500 := rfl
  simp only [copyRecursive, copyBody]
  rw [if_neg (by omega)]
  simp only [Nat.add_sub_cancel]

/-- Step lemma: a panicking custom hook propagates its panic. -/
theorem step_custom_panic (fuel : Nat) (s : String) (st : St) (h : Heap)
    (hceil : st.ptrLevel + 1 ≤ maxReferenceChainLength) :
    copyRecursive (fuel + 1) (.custom (.error s)) st h =
      (.error (.panicked s), st, h) := by
  have e1 : maxReferenceChainLength = 1500 := rfl
  simp only [copyRecursive, copyBody]
  rw [if_neg (by omega)]
  simp only [Nat.add_sub_cancel]

/-- Step lemma: `time.Time` is copied by value, keeping the shared location
reference. -/
theorem step_time (fuel t : Nat) (loc : Option Nat) (st : St) (h : Heap)
    (hceil : st.ptrLevel + 1 ≤ maxReferenceChainLength) :
    copyRecursive (fuel + 1) (.timeV t loc) st h = (.ok (.timeV t loc), st, h) := by
  have e1 : maxReferenceChainLength = 1500 := rfl
  simp only [copyRecursive, copyBody]
  rw [if_neg (by omega)]
  simp only [Nat.add_sub_cancel]

/-- Step lemma: a function value is shared (`cpy.Set(original)`). -/
theorem step_func (fuel : Nat) (o : Option Nat) (st : St) (h : Heap)
    (hceil : st.ptrLevel + 1 ≤ maxReferenceChainLength) :
    copyRecursive (fuel + 1) (.func o) st h = (.ok (.func o), st, h) := by
  have e1 : maxReferenceChainLength = 1500 := rfl
  simp only [copyRecursive, copyBody]
  rw [if_neg (by omega)]
  simp only [Nat.add_sub_cancel]

/-- Step lemma: a channel value is shared (`cpy.Set(original)`). -/
theorem step_chan (fuel : Nat) (o : Option Nat) (st : St) (h : Heap)
    (hceil : st.ptrLevel + 1 ≤ maxReferenceChainLength) :
    copyRecursive (fuel + 1) (.chan o) st h = (.ok (.chan o), st, h) := by
  have e1 : maxReferenceChainLength = 1500 := rfl
  simp only [copyRecursive, copyBody]
  rw [if_neg (by omega)]
  simp only [Nat.add_sub_cancel]

/-- Step lemma: a nil interface stays nil. -/
theorem step_iface_nil (fuel : Nat) (st : St) (h : Heap)
    (hceil : st.ptrLevel + 1 ≤ maxReferenceChainLength) :
    copyRecursive (fuel + 1) (.iface none) st h = (.ok (.iface none), st, h) := by
  have e1 : maxReferenceChainLength = 1500 := rfl
  simp only [copyRecursive, copyBody]
  rw [if_neg (by omega)]
  simp only [Nat.add_sub_cancel]

/-- Step lemma: a non-nil interface copies its dynamic value into a fresh
slot and stores it back. -/
theorem step_iface_ok (fuel : Nat) (w cw : Val) (st st2 : St) (h h2 : Heap)
    (hceil : st.ptrLevel + 1 ≤ maxReferenceChainLength)
    (hw : copyRecursive fuel w ⟨st.ptrLevel + 1, st.ptrSeen⟩ h = (.ok cw, st2, h2)) :
    copyRecursive (fuel + 1) (.iface (some w)) st h =
      (.ok (.iface (some cw)), ⟨st2.ptrLevel - 1, st2.ptrSeen⟩, h2) := by
  have e1 : maxReferenceChainLength = 1500 := rfl
  simp only [copyRecursive, copyBody]
  rw [if_neg (by omega)]
  simp only [hw]

/-- Step lemma: an error from inside an interface propagates. -/
theorem step_iface_err (fuel : Nat) (w : Val) (e : CopyErr) (st st2 : St) (h h2 : Heap)
    (hceil : st.ptrLevel + 1 ≤ maxReferenceChainLength)
    (hw : copyRecursive fuel w ⟨st.ptrLevel + 1, st.ptrSeen⟩ h = (.error e, st2, h2)) :
    copyRecursive (fuel + 1) (.iface (some w)) st h =
      (.error e, ⟨st2.ptrLevel - 1, st2.ptrSeen⟩, h2) := by
  have e1 : maxReferenceChainLength = 1500 := rfl
  simp only [copyRecursive, copyBody]
  rw [if_neg (by omega)]
  simp only [hw]

/-- Step lemma: a struct's fields are processed by `copyFields`; a success is
rewrapped as a struct. -/
theorem step_struct_ok (fuel : Nat) (fs fs' : List (Bool × Val)) (st st2 : St) (h h2 : Heap)
    (hceil : st.ptrLevel + 1 ≤ maxReferenceChainLength)
    (hf : copyFields (copyRecursive fuel) fs ⟨st.ptrLevel + 1, st.ptrSeen⟩ h = (.ok fs', st2, h2)) :
    copyRecursive (fuel + 1) (.struct fs) st h =
      (.ok (.struct fs'), ⟨st2.ptrLevel - 1, st2.ptrSeen⟩, h2) := by
  have e1 : maxReferenceChainLength = 1500 := rfl
  simp only [copyRecursive, copyBody]
  rw [if_neg (by omega)]
  simp only [hf]

/-- Step lemma: an error from a struct field propagates. -/
theorem step_struct_err (fuel : Nat) (fs : List (Bool × Val)) (e : CopyErr) (st st2 : St) (h h2 : Heap)
    (hceil : st.ptrLevel + 1 ≤ maxReferenceChainLength)
    (hf : copyFields (copyRecursive fuel) fs ⟨st.ptrLevel + 1, st.ptrSeen⟩ h = (.error e, st2, h2)) :
    copyRecursive (fuel + 1) (.struct fs) st h =
      (.error e, ⟨st2.ptrLevel - 1, st2.ptrSeen⟩, h2) := by
  have e1 : maxReferenceChainLength = 1500 := rfl
  simp only [copyRecursive, copyBody]
  rw [if_neg (by omega)]
  simp only [hf]

/-- Step lemma: an array copies elementwise; a success is rewrapped. -/
theorem step_array_ok (fuel : Nat) (vs cs : List Val) (st st2 : St) (h h2 : Heap)
    (hceil : st.ptrLevel + 1 ≤ maxReferenceChainLength)
    (hf : copyList (copyRecursive fuel) vs ⟨st.ptrLevel + 1, st.ptrSeen⟩ h = (.ok cs, st2, h2)) :
    copyRecursive (fuel + 1) (.array vs) st h =
      (.ok (.array cs), ⟨st2.ptrLevel - 1, st2.ptrSeen⟩, h2) := by
  have e1 : maxReferenceChainLength = 1500 := rfl
  simp only [copyRecursive, copyBody]
  rw [if_neg (by omega)]
  simp only [hf]

/-- Step lemma: an error from an array element propagates. -/
theorem step_array_err (fuel : Nat) (vs : List Val) (e : CopyErr) (st st2 : St) (h h2 : Heap)
    (hceil : st.ptrLevel + 1 ≤ maxReferenceChainLength)
    (hf : copyList (copyRecursive fuel) vs ⟨st.ptrLevel + 1, st.ptrSeen⟩ h = (.error e, st2, h2)) :
    copyRecursive (fuel + 1) (.array vs) st h =
      (.error e, ⟨st2.ptrLevel - 1, st2.ptrSeen⟩, h2) := by
  have e1 : maxReferenceChainLength = 1500 := rfl
  simp only [copyRecursive, copyBody]
  rw [if_neg (by omega)]
  simp only [hf]

/-- Step lemma: a pointer whose identity is already in the seen-set above the
detection threshold fails immediately with Circular-Reference. -/
theorem step_ptr_hit (fuel : Nat) (op : Option Nat) (st : St) (h : Heap)
    (hceil : st.ptrLevel + 1 ≤ maxReferenceChainLength)
    (hg : startDetectingCyclesAfter ≤ st.ptrLevel)
    (hm : RefId.ptrId op ∈ st.ptrSeen) :
    copyRecursive (fuel + 1) (.ptr op) st h = (.error (.circularRef (.ptr op)), st, h) := by
  have e1 : maxReferenceChainLength = 1500 := rfl
  have e2 : startDetectingCyclesAfter = 1000 := rfl
  simp only [copyRecursive, copyBody]
  rw [if_neg (by omega)]
  rw [if_pos (by omega)]
  rw [if_pos hm]
  simp only [Nat.add_sub_cancel]

/-- Step lemma: above the threshold with an unrecorded identity, the pointer
records it, runs the target copy, and erases it again. -/
theorem step_ptr_add (fuel : Nat) (op : Option Nat) (r : Except CopyErr Val)
    (st st2 : St) (h h2 : Heap)
    (hceil : st.ptrLevel + 1 ≤ maxReferenceChainLength)
    (hg : startDetectingCyclesAfter ≤ st.ptrLevel)
    (hm : RefId.ptrId op ∉ st.ptrSeen)
    (ht : ptrTarget (copyRecursive fuel) op
      ⟨st.ptrLevel + 1, RefId.ptrId op :: st.ptrSeen⟩ h = (r, st2, h2)) :
    copyRecursive (fuel + 1) (.ptr op) st h =
      (r, ⟨st2.ptrLevel - 1, st2.ptrSeen.erase (RefId.ptrId op)⟩, h2) := by
  have e1 : maxReferenceChainLength = 1500 := rfl
  have e2 : startDetectingCyclesAfter = 1000 := rfl
  simp only [copyRecursive, copyBody]
  rw [if_neg (by omega)]
  rw [if_pos (by omega)]
  rw [if_neg hm]
  simp only [ht]

/-- Step lemma: at or below the threshold no identity bookkeeping happens for
a pointer, whatever the seen-set contains. -/
theorem step_ptr_noguard (fuel : Nat) (op : Option Nat) (r : Except CopyErr Val)
    (st st2 : St) (h h2 : Heap)
    (hceil : st.ptrLevel + 1 ≤ maxReferenceChainLength)
    (hg : st.ptrLevel + 1 ≤ startDetectingCyclesAfter)
    (ht : ptrTarget (copyRecursive fuel) op ⟨st.ptrLevel + 1, st.ptrSeen⟩ h = (r, st2, h2)) :
    copyRecursive (fuel + 1) (.ptr op) st h = (r, ⟨st2.ptrLevel - 1, st2.ptrSeen⟩, h2) := by
  have e1 : maxReferenceChainLength = 1500 := rfl
  have e2 : startDetectingCyclesAfter = 1000 := rfl
  simp only [copyRecursive, copyBody]
  rw [if_neg (by omega)]
  rw [if_neg (by omega)]
  simp only [ht]

/-- Step lemma: a slice whose `(backing, length)` identity is already recorded
above the threshold fails immediately with Circular-Reference. -/
theorem step_slice_hit (fuel : Nat) (os : Option (Nat × Nat)) (st : St) (h : Heap)
    (hceil : st.ptrLevel + 1 ≤ maxReferenceChainLength)
    (hg : startDetectingCyclesAfter ≤ st.ptrLevel)
    (hm : RefId.sliceId os ∈ st.ptrSeen) :
    copyRecursive (fuel + 1) (.slice os) st h = (.error (.circularRef (.slice os)), st, h) := by
  have e1 : maxReferenceChainLength = 1500 := rfl
  have e2 : startDetectingCyclesAfter = 1000 := rfl
  simp only [copyRecursive, copyBody]
  rw [if_neg (by omega)]
  rw [if_pos (by omega)]
  rw [if_pos hm]
  simp only [Nat.add_sub_cancel]

/-- Step lemma: above the threshold with an unrecorded identity, the slice
records it, copies its backing, and erases it again. -/
theorem step_slice_add (fuel : Nat) (os : Option (Nat × Nat)) (r : Except CopyErr Val)
    (st st2 : St) (h h2 : Heap)
    (hceil : st.ptrLevel + 1 ≤ maxReferenceChainLength)
    (hg : startDetectingCyclesAfter ≤ st.ptrLevel)
    (hm : RefId.sliceId os ∉ st.ptrSeen)
    (ht : sliceBacking (copyRecursive fuel) os
      ⟨st.ptrLevel + 1, RefId.sliceId os :: st.ptrSeen⟩ h = (r, st2, h2)) :
    copyRecursive (fuel + 1) (.slice os) st h =
      (r, ⟨st2.ptrLevel - 1, st2.ptrSeen.erase (RefId.sliceId os)⟩, h2) := by
  have e1 : maxReferenceChainLength = 1500 := rfl
  have e2 : startDetectingCyclesAfter = 1000 := rfl
  simp only [copyRecursive, copyBody]
  rw [if_neg (by omega)]
  rw [if_pos (by omega)]
  rw [if_neg hm]
  simp only [ht]

/-- Step lemma: at or below the threshold a slice does no identity
bookkeeping. -/
theorem step_slice_noguard (fuel : Nat) (os : Option (Nat × Nat)) (r : Except CopyErr Val)
    (st st2 : St) (h h2 : Heap)
    (hceil : st.ptrLevel + 1 ≤ maxReferenceChainLength)
    (hg : st.ptrLevel + 1 ≤ startDetectingCyclesAfter)
    (ht : sliceBacking (copyRecursive fuel) os ⟨st.ptrLevel + 1, st.ptrSeen⟩ h = (r, st2, h2)) :
    copyRecursive (fuel + 1) (.slice os) st h = (r, ⟨st2.ptrLevel - 1, st2.ptrSeen⟩, h2) := by
  have e1 : maxReferenceChainLength = 1500 := rfl
  have e2 : startDetectingCyclesAfter = 1000 := rfl
  simp only [copyRecursive, copyBody]
  rw [if_neg (by omega)]
  rw [if_neg (by omega)]
  simp only [ht]

/-- Step lemma: a map whose backing identity is already recorded above the
threshold fails immediately with Circular-Reference. -/
theorem step_map_hit (fuel : Nat) (om : Option Nat) (st : St) (h : Heap)
    (hceil : st.ptrLevel + 1 ≤ maxReferenceChainLength)
    (hg : startDetectingCyclesAfter ≤ st.ptrLevel)
    (hm : RefId.mapId om ∈ st.ptrSeen) :
    copyRecursive (fuel + 1) (.map om) st h = (.error (.circularRef (.map om)), st, h) := by
  have e1 : maxReferenceChainLength = 1500 := rfl
  have e2 : startDetectingCyclesAfter = 1000 := rfl
  simp only [copyRecursive, copyBody]
  rw [if_neg (by omega)]
  rw [if_pos (by omega)]
  rw [if_pos hm]
  simp only [Nat.add_sub_cancel]

/-- Step lemma: above the threshold with an unrecorded identity, the map
records it, copies its table, and erases it again. -/
theorem step_map_add (fuel : Nat) (om : Option Nat) (r : Except CopyErr Val)
    (st st2 : St) (h h2 : Heap)
    (hceil : st.ptrLevel + 1 ≤ maxReferenceChainLength)
    (hg : startDetectingCyclesAfter ≤ st.ptrLevel)
    (hm : RefId.mapId om ∉ st.ptrSeen)
    (ht : mapTable (copyRecursive fuel) om
      ⟨st.ptrLevel + 1, RefId.mapId om :: st.ptrSeen⟩ h = (r, st2, h2)) :
    copyRecursive (fuel + 1) (.map om) st h =
      (r, ⟨st2.ptrLevel - 1, st2.ptrSeen.erase (RefId.mapId om)⟩, h2) := by
  have e1 : maxReferenceChainLength = 1500 := rfl
  have e2 : startDetectingCyclesAfter = 1000 := rfl
  simp only [copyRecursive, copyBody]
  rw [if_neg (by omega)]
  rw [if_pos (by omega)]
  rw [if_neg hm]
  simp only [ht]

/-- Step lemma: at or below the threshold a map does no identity
bookkeeping. -/
theorem step_map_noguard (fuel : Nat) (om : Option Nat) (r : Except CopyErr Val)
    (st st2 : St) (h h2 : Heap)
    (hceil : st.ptrLevel + 1 ≤ maxReferenceChainLength)
    (hg : st.ptrLevel + 1 ≤ startDetectingCyclesAfter)
    (ht : mapTable (copyRecursive fuel) om ⟨st.ptrLevel + 1, st.ptrSeen⟩ h = (r, st2, h2)) :
    copyRecursive (fuel + 1) (.map om) st h = (r, ⟨st2.ptrLevel - 1, st2.ptrSeen⟩, h2) := by
  have e1 : maxReferenceChainLength = 1500 := rfl
  have e2 : startDetectingCyclesAfter = 1000 := rfl
  simp only [copyRecursive, copyBody]
  rw [if_neg (by omega)]
  rw [if_neg (by omega)]
  simp only [ht]

/-- Projection reduction for literal states, for arithmetic side goals. -/
theorem ptrLevel_mk (a : Nat) (sn : List RefId) : St.ptrLevel ⟨a, sn⟩ = a := rfl

/-- Above the threshold with the identity not yet recorded, the self-pointer
records itself, recurses into its own target (itself), and the revisit one
level deeper fails with Circular-Reference; the recorded identity is erased on
the way out. -/
theorem selfPtr_detect (fuel L : Nat) (seen : List RefId)
    (hg : startDetectingCyclesAfter ≤ L) (hc : L + 2 ≤ maxReferenceChainLength)
    (hm : RefId.ptrId (some 0) ∉ seen) :
    copyRecursive (fuel + 2) selfPtrVal ⟨L, seen⟩ selfPtrHeap =
      (.error (.circularRef selfPtrVal), ⟨L, seen⟩, selfPtrHeap) := by
  have e1 : maxReferenceChainLength = 1500 := rfl
  have e2 : startDetectingCyclesAfter = 1000 := rfl
  simp only [selfPtrVal] at *
  have hinner := step_ptr_hit fuel (some 0) ⟨L + 1, RefId.ptrId (some 0) :: seen⟩
    selfPtrHeap (by simp only [ptrLevel_mk]; omega) (by simp only [ptrLevel_mk]; omega)
    (List.mem_cons_self _ _)
  have ht : ptrTarget (copyRecursive (fuel + 1)) (some 0)
      ⟨L + 1, RefId.ptrId (some 0) :: seen⟩ selfPtrHeap =
      (.error (.circularRef (.ptr (some 0))), ⟨L + 1, RefId.ptrId (some 0) :: seen⟩,
        selfPtrHeap) := by
    simp only [ptrTarget]
    rw [show lookupC selfPtrHeap 0 = some (.cell (.ptr (some 0))) from rfl]
    simp only [hinner]
  have main := step_ptr_add (fuel + 1) (some 0) _ ⟨L, seen⟩ _ selfPtrHeap _
    (by simp only [ptrLevel_mk]; omega) (by simp only [ptrLevel_mk]; omega) hm ht
  simp only [List.erase_cons_head, Nat.add_sub_cancel] at main
  exact main

/-- Entering the self-pointer anywhere at or below the threshold recurses
(recording nothing) until the threshold is crossed, after which the identity
check fires: the overall result is Circular-Reference with state and heap
restored. -/
theorem selfPtr_below : ∀ k fuel L : Nat, ∀ seen : List RefId,
    L + k = startDetectingCyclesAfter → RefId.ptrId (some 0) ∉ seen → k + 2 ≤ fuel →
    copyRecursive fuel selfPtrVal ⟨L, seen⟩ selfPtrHeap =
      (.error (.circularRef selfPtrVal), ⟨L, seen⟩, selfPtrHeap) := by
  intro k
  induction k with
  | zero =>
    intro fuel L seen hL hm hf
    obtain ⟨f, rfl⟩ : ∃ f, fuel = f + 2 := ⟨fuel - 2, by omega⟩
    have e2 : startDetectingCyclesAfter = 1000 := rfl
    exact selfPtr_detect f L seen (by omega)
      (by have e1 : maxReferenceChainLength = 1500 := rfl; omega) hm
  | succ k ih =>
    intro fuel L seen hL hm hf
    obtain ⟨f, rfl⟩ : ∃ f, fuel = f + 1 := ⟨fuel - 1, by omega⟩
    have e1 : maxReferenceChainLength = 1500 := rfl
    have e2 : startDetectingCyclesAfter = 1000 := rfl
    have hin := ih f (L + 1) seen (by omega) hm (by omega)
    simp only [selfPtrVal] at *
    have ht : ptrTarget (copyRecursive f) (some 0) ⟨L + 1, seen⟩ selfPtrHeap =
        (.error (.circularRef (.ptr (some 0))), ⟨L + 1, seen⟩, selfPtrHeap) := by
      simp only [ptrTarget]
      rw [show lookupC selfPtrHeap 0 = some (.cell (.ptr (some 0))) from rfl]
      simp only [hin]
    have main := step_ptr_noguard f (some 0) _ ⟨L, seen⟩ _ selfPtrHeap _
      (by simp only [ptrLevel_mk]; omega) (by simp only [ptrLevel_mk]; omega) ht
    simp only [Nat.add_sub_cancel] at main
    exact main

/-- `Copy` on the self-referential pointer terminates with a
Circular-Reference error naming the pointer, leaving the heap unchanged. -/
theorem Copy_selfPtr :
    Copy (some selfPtrVal) selfPtrHeap = (.error (.circularRef selfPtrVal), selfPtrHeap) := by
  simp only [Copy]
  rw [selfPtr_below 1000 copyFuel 0 [] rfl (by simp)
    (by have : copyFuel = 1502 := rfl; omega)]

/-- A slice of length 1 whose single element is that slice itself. -/
def selfSliceVal : Val := .slice (some (0, 1))

/-- The one-cell heap realising the self-containing slice. -/
def selfSliceHeap : Heap := ⟨1, [(0, .cells [selfSliceVal])]⟩

/-- Above the threshold with the identity not yet recorded, the
self-containing slice records its `(backing, length)` identity, starts copying
its single element (itself), and the revisit fails with Circular-Reference. -/
theorem selfSlice_detect (fuel L : Nat) (seen : List RefId)
    (hg : startDetectingCyclesAfter ≤ L) (hc : L + 2 ≤ maxReferenceChainLength)
    (hm : RefId.sliceId (some (0, 1)) ∉ seen) :
    copyRecursive (fuel + 2) selfSliceVal ⟨L, seen⟩ selfSliceHeap =
      (.error (.circularRef selfSliceVal), ⟨L, seen⟩, selfSliceHeap) := by
  have e1 : maxReferenceChainLength = 1500 := rfl
  have e2 : startDetectingCyclesAfter = 1000 := rfl
  simp only [selfSliceVal] at *
  have hinner := step_slice_hit fuel (some (0, 1))
    ⟨L + 1, RefId.sliceId (some (0, 1)) :: seen⟩ selfSliceHeap
    (by simp only [ptrLevel_mk]; omega) (by simp only [ptrLevel_mk]; omega)
    (List.mem_cons_self _ _)
  have ht : sliceBacking (copyRecursive (fuel + 1)) (some (0, 1))
      ⟨L + 1, RefId.sliceId (some (0, 1)) :: seen⟩ selfSliceHeap =
      (.error (.circularRef (.slice (some (0, 1)))),
        ⟨L + 1, RefId.sliceId (some (0, 1)) :: seen⟩, selfSliceHeap) := by
    simp only [sliceBacking]
    rw [show lookupC selfSliceHeap 0 = some (.cells [.slice (some (0, 1))]) from rfl]
    simp only [List.take, copyList, hinner]
  have main := step_slice_add (fuel + 1) (some (0, 1)) _ ⟨L, seen⟩ _ selfSliceHeap _
    (by simp only [ptrLevel_mk]; omega) (by simp only [ptrLevel_mk]; omega) hm ht
  simp only [List.erase_cons_head, Nat.add_sub_cancel] at main
  exact main

/-- Entering the self-containing slice at or below the threshold recurses
(recording nothing) until the threshold is crossed, after which the identity
check fires. -/
theorem selfSlice_below : ∀ k fuel L : Nat, ∀ seen : List RefId,
    L + k = startDetectingCyclesAfter → RefId.sliceId (some (0, 1)) ∉ seen → k + 2 ≤ fuel →
    copyRecursive fuel selfSliceVal ⟨L, seen⟩ selfSliceHeap =
      (.error (.circularRef selfSliceVal), ⟨L, seen⟩, selfSliceHeap) := by
  intro k
  induction k with
  | zero =>
    intro fuel L seen hL hm hf
    obtain ⟨f, rfl⟩ : ∃ f, fuel = f + 2 := ⟨fuel - 2, by omega⟩
    have e2 : startDetectingCyclesAfter = 1000 := rfl
    exact selfSlice_detect f L seen (by omega)
      (by have e1 : maxReferenceChainLength = 1500 := rfl; omega) hm
  | succ k ih =>
    intro fuel L seen hL hm hf
    obtain ⟨f, rfl⟩ : ∃ f, fuel = f + 1 := ⟨fuel - 1, by omega⟩
    have e1 : maxReferenceChainLength = 1500 := rfl
    have e2 : startDetectingCyclesAfter = 1000 := rfl
    have hin := ih f (L + 1) seen (by omega) hm (by omega)
    simp only [selfSliceVal] at *
    have ht : sliceBacking (copyRecursive f) (some (0, 1)) ⟨L + 1, seen⟩ selfSliceHeap =
        (.error (.circularRef (.slice (some (0, 1)))), ⟨L + 1, seen⟩, selfSliceHeap) := by
      simp only [sliceBacking]
      rw [show lookupC selfSliceHeap 0 = some (.cells [.slice (some (0, 1))]) from rfl]
      simp only [List.take, copyList, hin]
    have main := step_slice_noguard f (some (0, 1)) _ ⟨L, seen⟩ _ selfSliceHeap _
      (by simp only [ptrLevel_mk]; omega) (by simp only [ptrLevel_mk]; omega) ht
    simp only [Nat.add_sub_cancel] at main
    exact main

/-- `Copy` on the self-containing slice terminates with a Circular-Reference
error naming the slice, leaving the heap unchanged. -/
theorem Copy_selfSlice :
    Copy (some selfSliceVal) selfSliceHeap = (.error (.circularRef selfSliceVal), selfSliceHeap) := by
  simp only [Copy]
  rw [selfSlice_below 1000 copyFuel 0 [] rfl (by simp)
    (by have : copyFuel = 1502 := rfl; omega)]

/-- `sNest k`: `k` struct wrappers (one exported field each) around a pointer
back to location 0.  With the heap below this realises a cycle of period 600
levels: pointer, then 599 struct layers, then the same pointer again. -/
def sNest : Nat → Val
  | 0 => .ptr (some 0)
  | k + 1 => .struct [(true, sNest k)]

/-- Heap for the long-period cycle: location 0 holds `sNest 599`, whose
innermost pointer points back to location 0. -/
def longCycleHeap : Heap := ⟨1, [(0, .cell (sNest 599))]⟩

/-- One struct layer passes an inner error through, restoring level and
seen-set. -/
theorem structStep (k fuel L : Nat) (seen : List RefId) (h : Heap) (e : CopyErr)
    (hceil : L + 1 ≤ maxReferenceChainLength)
    (hin : copyRecursive fuel (sNest k) ⟨L + 1, seen⟩ h = (.error e, ⟨L + 1, seen⟩, h)) :
    copyRecursive (fuel + 1) (sNest (k + 1)) ⟨L, seen⟩ h = (.error e, ⟨L, seen⟩, h) := by
  have hf : copyFields (copyRecursive fuel) [(true, sNest k)] ⟨L + 1, seen⟩ h =
      (.error e, ⟨L + 1, seen⟩, h) := by
    simp only [copyFields, if_true, hin]
  have main := step_struct_err fuel [(true, sNest k)] e ⟨L, seen⟩ _ h _
    (by simp only [ptrLevel_mk]; exact hceil) hf
  simp only [Nat.add_sub_cancel] at main
  simp only [sNest]
  exact main

/-- Iterating struct layers: `j` layers of struct around `sNest k` pass an
inner error through, one level per layer. -/
theorem structChainUp : ∀ j k fuel L : Nat, ∀ seen : List RefId, ∀ h : Heap, ∀ e : CopyErr,
    j ≤ L → L ≤ maxReferenceChainLength →
    copyRecursive fuel (sNest k) ⟨L, seen⟩ h = (.error e, ⟨L, seen⟩, h) →
    copyRecursive (fuel + j) (sNest (k + j)) ⟨L - j, seen⟩ h = (.error e, ⟨L - j, seen⟩, h) := by
  intro j
  induction j with
  | zero =>
    intro k fuel L seen h e hj hL hin
    simpa using hin
  | succ j ih =>
    intro k fuel L seen h e hj hL hin
    have hprev := ih k fuel L seen h e (by omega) hL hin
    have harith : L - (j + 1) + 1 = L - j := by omega
    have hstep := structStep (k + j) (fuel + j) (L - (j + 1)) seen h e
      (by omega) (by rw [harith]; exact hprev)
    exact hstep

/-- The pointer node of the long cycle below the guard threshold: it recurses
into the struct chain stored at location 0 and passes its error through. -/
theorem longCycle_ptr_noguard (fuel L : Nat) (seen : List RefId) (e : CopyErr)
    (hceil : L + 1 ≤ maxReferenceChainLength)
    (hg : L + 1 ≤ startDetectingCyclesAfter)
    (hin : copyRecursive fuel (sNest 599) ⟨L + 1, seen⟩ longCycleHeap =
      (.error e, ⟨L + 1, seen⟩, longCycleHeap)) :
    copyRecursive (fuel + 1) (sNest 0) ⟨L, seen⟩ longCycleHeap =
      (.error e, ⟨L, seen⟩, longCycleHeap) := by
  have ht : ptrTarget (copyRecursive fuel) (some 0) ⟨L + 1, seen⟩ longCycleHeap =
      (.error e, ⟨L + 1, seen⟩, longCycleHeap) := by
    simp only [ptrTarget]
    rw [show lookupC longCycleHeap 0 = some (.cell (sNest 599)) from rfl]
    simp only [hin]
  have main := step_ptr_noguard fuel (some 0) _ ⟨L, seen⟩ _ longCycleHeap _
    (by simp only [ptrLevel_mk]; omega) (by simp only [ptrLevel_mk]; omega) ht
  simp only [Nat.add_sub_cancel] at main
  simp only [sNest]
  exact main

/-- The pointer node of the long cycle above the guard threshold with its
identity unrecorded: it records itself, recurses, and erases the record while
the inner error passes through. -/
theorem longCycle_ptr_add (fuel L : Nat) (seen : List RefId) (e : CopyErr)
    (hceil : L + 1 ≤ maxReferenceChainLength)
    (hg : startDetectingCyclesAfter ≤ L)
    (hm : RefId.ptrId (some 0) ∉ seen)
    (hin : copyRecursive fuel (sNest 599)
      ⟨L + 1, RefId.ptrId (some 0) :: seen⟩ longCycleHeap =
      (.error e, ⟨L + 1, RefId.ptrId (some 0) :: seen⟩, longCycleHeap)) :
    copyRecursive (fuel + 1) (sNest 0) ⟨L, seen⟩ longCycleHeap =
      (.error e, ⟨L, seen⟩, longCycleHeap) := by
  have ht : ptrTarget (copyRecursive fuel) (some 0)
      ⟨L + 1, RefId.ptrId (some 0) :: seen⟩ longCycleHeap =
      (.error e, ⟨L + 1, RefId.ptrId (some 0) :: seen⟩, longCycleHeap) := by
    simp only [ptrTarget]
    rw [show lookupC longCycleHeap 0 = some (.cell (sNest 599)) from rfl]
    simp only [hin]
  have main := step_ptr_add fuel (some 0) _ ⟨L, seen⟩ _ longCycleHeap _
    (by simp only [ptrLevel_mk]; omega) (by simp only [ptrLevel_mk]; omega) hm ht
  simp only [List.erase_cons_head, Nat.add_sub_cancel] at main
  simp only [sNest]
  exact main

/-- `Copy` on the long-period cycle fails with Chain-Too-Long (not
Circular-Reference): the identity recorded at depth 1201 would only repeat at
depth 1801, past the ceiling, so the ceiling fires first at depth 1501, in the
middle of a struct chain. -/
theorem Copy_longCycle :
    Copy (some (sNest 0)) longCycleHeap =
      (.error (.chainTooLong (sNest 300)), longCycleHeap) := by
  have e1 : maxReferenceChainLength = 1500 := rfl
  have e2 : startDetectingCyclesAfter = 1000 := rfl
  -- depth 1501 (incoming level 1500): the ceiling fires on `sNest 300`
  have hA := chain_ceiling 1 (sNest 300) ⟨1500, [RefId.ptrId (some 0)]⟩ longCycleHeap
    (by simp only [ptrLevel_mk]; omega)
  -- struct layers from incoming level 1201 down to 1500
  have hB := structChainUp 299 300 2 1500 [RefId.ptrId (some 0)] longCycleHeap
    (.chainTooLong (sNest 300)) (by omega) (by omega) hA
  norm_num at hB
  -- the pointer at incoming level 1200 records its identity and recurses
  have hC := longCycle_ptr_add 301 1200 [] (.chainTooLong (sNest 300))
    (by omega) (by omega) (by simp) hB
  -- struct layers from incoming level 601 down to 1200
  have hD := structChainUp 599 0 302 1200 [] longCycleHeap
    (.chainTooLong (sNest 300)) (by omega) (by omega) hC
  norm_num at hD
  -- the pointer at incoming level 600 is still below the threshold
  have hE := longCycle_ptr_noguard 901 600 [] (.chainTooLong (sNest 300))
    (by omega) (by omega) hD
  -- struct layers from incoming level 1 down to 600
  have hF := structChainUp 599 0 902 600 [] longCycleHeap
    (.chainTooLong (sNest 300)) (by omega) (by omega) hE
  norm_num at hF
  -- the root pointer at incoming level 0
  have hG := longCycle_ptr_noguard 1501 0 [] (.chainTooLong (sNest 300))
    (by omega) (by omega) hF
  simp only [Copy]
  rw [show copyFuel = 1501 + 1 from rfl]
  rw [hG]

/-- Below the detection threshold a pointer to an integer is copied by
allocating a fresh target, with no identity check and no recording — whatever
the seen-set contains (even this pointer's own identity). -/
theorem ptr_prim_below (fuel l k : Nat) (st : St) (h : Heap)
    (hg : st.ptrLevel + 1 ≤ startDetectingCyclesAfter)
    (hl : lookupC h l = some (.cell (.prim k))) :
    copyRecursive (fuel + 2) (.ptr (some l)) st h =
      (.ok (.ptr (some h.next)), st, ⟨h.next + 1, (h.next, .cell (.prim k)) :: h.mem⟩) := by
  have e1 : maxReferenceChainLength = 1500 := rfl
  have e2 : startDetectingCyclesAfter = 1000 := rfl
  have hp := step_prim fuel k ⟨st.ptrLevel + 1, st.ptrSeen⟩ h
    (by simp only [ptrLevel_mk]; omega)
  have ht : ptrTarget (copyRecursive (fuel + 1)) (some l)
      ⟨st.ptrLevel + 1, st.ptrSeen⟩ h =
      (.ok (.ptr (some h.next)), ⟨st.ptrLevel + 1, st.ptrSeen⟩,
        ⟨h.next + 1, (h.next, .cell (.prim k)) :: h.mem⟩) := by
    simp only [ptrTarget, hl, hp, alloc]
  have main := step_ptr_noguard (fuel + 1) (some l) _ st _ h _
    (by omega) hg ht
  simp only [Nat.add_sub_cancel] at main
  exact main

/-- C2: `copyRecursive` fails with Chain-Too-Long carrying the node being
processed exactly when the entry increment pushes the depth past
`maxReferenceChainLength` (the counter is incremented once per node: every
pointer dereference, struct field, slice/array element, map key/value and
interface unwrap is one call); a chain of 1500 nodes (`nestIface 1499`) is
copied successfully and a chain of 1501 nodes fails with Chain-Too-Long at
its innermost node. -/
theorem c2_depth_ceiling :
    (∀ (fuel : Nat) (v : Val) (st : St) (h : Heap),
      maxReferenceChainLength ≤ st.ptrLevel →
      copyRecursive (fuel + 1) v st h = (.error (.chainTooLong v), st, h)) ∧
    (∀ h : Heap, Copy (some (nestIface 1499)) h = (.ok (some (nestIface 1499)), h)) ∧
    (∀ h : Heap, Copy (some (nestIface 1500)) h = (.error (.chainTooLong (.prim 0)), h)) :=
  ⟨chain_ceiling, Copy_nest_at_ceiling, Copy_nest_beyond⟩

/-- Witness for C2 at a concrete input: entering with the level at the ceiling
fails with Chain-Too-Long naming the node. -/
theorem c2_depth_ceiling_witness :
    maxReferenceChainLength ≤ (1500 : Nat) ∧
    copyRecursive 1 (.prim 7) ⟨1500, []⟩ ⟨0, []⟩ =
      (.error (.chainTooLong (.prim 7)), ⟨1500, []⟩, ⟨0, []⟩) :=
  ⟨by decide, c2_depth_ceiling.1 0 (.prim 7) ⟨1500, []⟩ ⟨0, []⟩ (by decide)⟩

/-- C3 counterexample: a self-referential structure (a pointer into a chain of
599 structs whose innermost pointer points back to it) on which `Copy` does
NOT return a Circular-Reference error: it returns Chain-Too-Long, because the
cycle's identities, first recorded once depth passes 1000, would repeat only
past the ceiling. -/
theorem c3_counterexample :
    (Copy (some (sNest 0)) longCycleHeap).1 = .error (.chainTooLong (sNest 300)) := by
  rw [Copy_longCycle]

/-- C3 (amended): `Copy` on a self-referential structure always terminates
with an error — Circular-Reference when a recorded identity repeats before
the depth ceiling (as for the self-pointer and the self-containing slice),
and otherwise Chain-Too-Long (as for a cycle of period 600); it never hangs
(the fuel sentinel, the embedding's stand-in for non-termination, is
unreachable from `Copy`).  The guard applies to pointer, slice and map nodes
only and only records identities once depth exceeds 1000. -/
theorem c3_cycle_rejection :
    (∀ (src : Option Val) (h : Heap), (Copy src h).1 ≠ .error .outOfFuel) ∧
    Copy (some selfPtrVal) selfPtrHeap = (.error (.circularRef selfPtrVal), selfPtrHeap) ∧
    Copy (some selfSliceVal) selfSliceHeap =
      (.error (.circularRef selfSliceVal), selfSliceHeap) ∧
    Copy (some (sNest 0)) longCycleHeap =
      (.error (.chainTooLong (sNest 300)), longCycleHeap) :=
  ⟨Copy_nofuel, Copy_selfPtr, Copy_selfSlice, Copy_longCycle⟩

/-- C4 counterexample: a cyclic structure formed at depth 1 (the
self-pointer), whose failure is NOT produced by the hard depth ceiling: `Copy`
returns Circular-Reference (the identity check fires at depth 1002, well
before 1500). -/
theorem c4_counterexample :
    (Copy (some selfPtrVal) selfPtrHeap).1 = .error (.circularRef selfPtrVal) := by
  rw [Copy_selfPtr]

/-- C4 (amended): the cycle detector records no identities until depth
exceeds the threshold — below it a pointer is dereferenced with no check and
no recording whatever the seen-set holds — so a shallow cycle recurses past
depth 1000; there the identity check catches the revisit and the failure is
Circular-Reference (for the shallow self-pointer, at depth 1002), not
Chain-Too-Long; only a cycle whose identities do not repeat within the
threshold-to-ceiling window (such as the period-600 cycle) runs to the full
ceiling. -/
theorem c4_shallow_cycle :
    (∀ (fuel l k : Nat) (st : St) (h : Heap),
      st.ptrLevel + 1 ≤ startDetectingCyclesAfter →
      lookupC h l = some (.cell (.prim k)) →
      copyRecursive (fuel + 2) (.ptr (some l)) st h =
        (.ok (.ptr (some h.next)), st, ⟨h.next + 1, (h.next, .cell (.prim k)) :: h.mem⟩)) ∧
    Copy (some selfPtrVal) selfPtrHeap = (.error (.circularRef selfPtrVal), selfPtrHeap) ∧
    Copy (some (sNest 0)) longCycleHeap =
      (.error (.chainTooLong (sNest 300)), longCycleHeap) :=
  ⟨ptr_prim_below, Copy_selfPtr, Copy_longCycle⟩

/-- Witness for C4 at a concrete input: below the threshold the pointer is
dereferenced with no identity check even though its own identity is in the
seen-set. -/
theorem c4_shallow_cycle_witness :
    (0 : Nat) + 1 ≤ startDetectingCyclesAfter ∧
    lookupC ⟨1, [(0, .cell (.prim 9))]⟩ 0 = some (.cell (.prim 9)) ∧
    copyRecursive 2 (.ptr (some 0)) ⟨0, [RefId.ptrId (some 0)]⟩ ⟨1, [(0, .cell (.prim 9))]⟩ =
      (.ok (.ptr (some 1)), ⟨0, [RefId.ptrId (some 0)]⟩,
        ⟨2, [(1, .cell (.prim 9)), (0, .cell (.prim 9))]⟩) :=
  ⟨by decide, by rfl,
    c4_shallow_cycle.1 0 0 9 ⟨0, [RefId.ptrId (some 0)]⟩ ⟨1, [(0, .cell (.prim 9))]⟩
      (by decide) (by rfl)⟩

/-- C6: for a value whose type declares the custom copy capability, the hook's
result is used verbatim — below the ceiling `copyRecursive` returns exactly
what `DeepCopy()` produces and skips all generic traversal (state and heap
untouched), and `Copy` returns it unchanged, whatever it is (even one sharing
memory with the source). -/
theorem c6_hook_precedence :
    (∀ (fuel : Nat) (r : Val) (st : St) (h : Heap),
      st.ptrLevel < maxReferenceChainLength →
      copyRecursive (fuel + 1) (.custom (.ok r)) st h = (.ok r, st, h)) ∧
    (∀ (r : Val) (h : Heap), Copy (some (.custom (.ok r))) h = (.ok (some r), h)) := by
  constructor
  · intro fuel r st h hlev
    exact step_custom_ok fuel r st h (by omega)
  · intro r h
    simp only [Copy]
    rw [show copyFuel = 1501 + 1 from rfl]
    rw [step_custom_ok 1501 r ⟨0, []⟩ h (by decide)]

/-- Witness for C6 at a concrete input: the hook's result (here a pointer into
the existing heap, sharing memory with the source) is returned verbatim. -/
theorem c6_hook_precedence_witness :
    (0 : Nat) < maxReferenceChainLength ∧
    copyRecursive 1 (.custom (.ok (.ptr (some 0)))) ⟨0, []⟩ ⟨1, [(0, .cell (.prim 3))]⟩ =
      (.ok (.ptr (some 0)), ⟨0, []⟩, ⟨1, [(0, .cell (.prim 3))]⟩) :=
  ⟨by decide,
    c6_hook_precedence.1 0 (.ptr (some 0)) ⟨0, []⟩ ⟨1, [(0, .cell (.prim 3))]⟩ (by decide)⟩

/-- C9: every `copyRecursive` call restores the traversal state on exit along
every path, success or failure: the level is incremented once on entry and
decremented once on exit, and every identity the call added to the seen-set is
erased when it leaves the node, so the caller sees exactly the state it passed
in (the set reflects only the current root-to-node path). -/
theorem c9_state_restoration :
    ∀ (fuel : Nat) (v : Val) (st : St) (h : Heap),
      (copyRecursive fuel v st h).2.1 = st :=
  state_restored

/-- C10: the depth-ceiling check runs before the custom-copy hook check: a
hook-implementing value entered past the ceiling fails with Chain-Too-Long and
the hook is never invoked — the result does not depend on what the hook would
return, or even on whether it would panic. -/
theorem c10_ceiling_before_hook :
    ∀ (fuel : Nat) (res : Except String Val) (st : St) (h : Heap),
      maxReferenceChainLength ≤ st.ptrLevel →
      copyRecursive (fuel + 1) (.custom res) st h =
        (.error (.chainTooLong (.custom res)), st, h) :=
  fun fuel res st h hl => chain_ceiling fuel (.custom res) st h hl

/-- Witness for C10 at a concrete input: even a panicking hook at the ceiling
yields Chain-Too-Long, untouched state, unchanged heap. -/
theorem c10_ceiling_before_hook_witness :
    maxReferenceChainLength ≤ (1500 : Nat) ∧
    copyRecursive 1 (.custom (.error "boom")) ⟨1500, []⟩ ⟨0, []⟩ =
      (.error (.chainTooLong (.custom (.error "boom"))), ⟨1500, []⟩, ⟨0, []⟩) :=
  ⟨by decide,
    c10_ceiling_before_hook 0 (.error "boom") ⟨1500, []⟩ ⟨0, []⟩ (by decide)⟩

/-- Copying a nil pointer leaves the destination nil (the target is not
`IsValid`), whatever side of the threshold the level is on. -/
theorem nil_ptr_copy (fuel : Nat) (st : St) (h : Heap)
    (hlev : st.ptrLevel < maxReferenceChainLength)
    (hm : RefId.ptrId none ∉ st.ptrSeen) :
    copyRecursive (fuel + 1) (.ptr none) st h = (.ok (.ptr none), st, h) := by
  by_cases hg : startDetectingCyclesAfter ≤ st.ptrLevel
  · have main := step_ptr_add fuel none _ st _ h _ (by omega) hg hm rfl
    simp only [ptrLevel_mk, List.erase_cons_head, Nat.add_sub_cancel] at main
    exact main
  · have main := step_ptr_noguard fuel none _ st _ h _ (by omega) (by omega) rfl
    simp only [ptrLevel_mk, Nat.add_sub_cancel] at main
    exact main

/-- Copying a nil slice leaves the destination nil. -/
theorem nil_slice_copy (fuel : Nat) (st : St) (h : Heap)
    (hlev : st.ptrLevel < maxReferenceChainLength)
    (hm : RefId.sliceId none ∉ st.ptrSeen) :
    copyRecursive (fuel + 1) (.slice none) st h = (.ok (.slice none), st, h) := by
  by_cases hg : startDetectingCyclesAfter ≤ st.ptrLevel
  · have main := step_slice_add fuel none _ st _ h _ (by omega) hg hm rfl
    simp only [ptrLevel_mk, List.erase_cons_head, Nat.add_sub_cancel] at main
    exact main
  · have main := step_slice_noguard fuel none _ st _ h _ (by omega) (by omega) rfl
    simp only [ptrLevel_mk, Nat.add_sub_cancel] at main
    exact main

/-- Copying a nil map leaves the destination nil. -/
theorem nil_map_copy (fuel : Nat) (st : St) (h : Heap)
    (hlev : st.ptrLevel < maxReferenceChainLength)
    (hm : RefId.mapId none ∉ st.ptrSeen) :
    copyRecursive (fuel + 1) (.map none) st h = (.ok (.map none), st, h) := by
  by_cases hg : startDetectingCyclesAfter ≤ st.ptrLevel
  · have main := step_map_add fuel none _ st _ h _ (by omega) hg hm rfl
    simp only [ptrLevel_mk, List.erase_cons_head, Nat.add_sub_cancel] at main
    exact main
  · have main := step_map_noguard fuel none _ st _ h _ (by omega) (by omega) rfl
    simp only [ptrLevel_mk, Nat.add_sub_cancel] at main
    exact main

/-- C8: `Copy(nil)` is `(nil, nil)`, and nil pointers, slices, maps and
interfaces are preserved as the same unallocated nil state — at the top level
and at any node below the ceiling — not replaced by an empty-but-allocated
substitute (state and heap are untouched: nothing is allocated). -/
theorem c8_nil_preservation :
    (∀ h : Heap, Copy none h = (.ok none, h)) ∧
    (∀ h : Heap, Copy (some (.ptr none)) h = (.ok (some (.ptr none)), h)) ∧
    (∀ h : Heap, Copy (some (.slice none)) h = (.ok (some (.slice none)), h)) ∧
    (∀ h : Heap, Copy (some (.map none)) h = (.ok (some (.map none)), h)) ∧
    (∀ h : Heap, Copy (some (.iface none)) h = (.ok (some (.iface none)), h)) ∧
    (∀ (fuel : Nat) (st : St) (h : Heap), st.ptrLevel < maxReferenceChainLength →
      RefId.ptrId none ∉ st.ptrSeen →
      copyRecursive (fuel + 1) (.ptr none) st h = (.ok (.ptr none), st, h)) ∧
    (∀ (fuel : Nat) (st : St) (h : Heap), st.ptrLevel < maxReferenceChainLength →
      RefId.sliceId none ∉ st.ptrSeen →
      copyRecursive (fuel + 1) (.slice none) st h = (.ok (.slice none), st, h)) ∧
    (∀ (fuel : Nat) (st : St) (h : Heap), st.ptrLevel < maxReferenceChainLength →
      RefId.mapId none ∉ st.ptrSeen →
      copyRecursive (fuel + 1) (.map none) st h = (.ok (.map none), st, h)) ∧
    (∀ (fuel : Nat) (st : St) (h : Heap), st.ptrLevel < maxReferenceChainLength →
      copyRecursive (fuel + 1) (.iface none) st h = (.ok (.iface none), st, h)) := by
  refine ⟨fun h => rfl, ?_, ?_, ?_, ?_, nil_ptr_copy, nil_slice_copy, nil_map_copy,
    fun fuel st h hlev => step_iface_nil fuel st h (by omega)⟩
  · intro h
    simp only [Copy]
    rw [show copyFuel = 1501 + 1 from rfl]
    rw [nil_ptr_copy 1501 ⟨0, []⟩ h (by decide) (by simp)]
  · intro h
    simp only [Copy]
    rw [show copyFuel = 1501 + 1 from rfl]
    rw [nil_slice_copy 1501 ⟨0, []⟩ h (by decide) (by simp)]
  · intro h
    simp only [Copy]
    rw [show copyFuel = 1501 + 1 from rfl]
    rw [nil_map_copy 1501 ⟨0, []⟩ h (by decide) (by simp)]
  · intro h
    simp only [Copy]
    rw [show copyFuel = 1501 + 1 from rfl]
    rw [step_iface_nil 1501 ⟨0, []⟩ h (by decide)]

/-- Witness for C8 at a concrete input: a nil pointer node below the ceiling
is copied to the same nil, allocating nothing. -/
theorem c8_nil_preservation_witness :
    (0 : Nat) < maxReferenceChainLength ∧ RefId.ptrId none ∉ ([] : List RefId) ∧
    copyRecursive 1 (.ptr none) ⟨0, []⟩ ⟨0, []⟩ = (.ok (.ptr none), ⟨0, []⟩, ⟨0, []⟩) :=
  ⟨by decide, by simp,
    c8_nil_preservation.2.2.2.2.2.1 0 ⟨0, []⟩ ⟨0, []⟩ (by decide) (by simp)⟩

/-- C5: `Copy` returns either a copy with no error or an error with no copy,
never both and never a partially built structure: every failure aborts the
whole traversal immediately and unwinds to `Copy`, which returns the error
and no value (in the embedding the `Except` result carries exactly one of
the two, matching the Go signature where the panic/recover path leaves the
named `copied` result nil); the fuel sentinel never escapes, and a panic
raised by a user hook deep in the traversal is caught at the `Copy` boundary
and surfaced as an ordinary error with no copy. -/
theorem c5_all_or_nothing :
    (∀ (src : Option Val) (h : Heap),
      (∃ c h', Copy src h = (.ok c, h')) ∨ (∃ e h', Copy src h = (.error e, h'))) ∧
    (∀ (src : Option Val) (h : Heap), (Copy src h).1 ≠ .error .outOfFuel) ∧
    (∀ (s : String) (h : Heap),
      Copy (some (.iface (some (.custom (.error s))))) h = (.error (.panicked s), h)) := by
  refine ⟨?_, Copy_nofuel, ?_⟩
  · intro src h
    match hc : Copy src h with
    | (.ok c, h') => exact Or.inl ⟨c, h', rfl⟩
    | (.error e, h') => exact Or.inr ⟨e, h', rfl⟩
  · intro s h
    have h1 := step_custom_panic 1500 s ⟨1, []⟩ h (by decide)
    have h2 := step_iface_err 1501 (.custom (.error s)) (.panicked s) ⟨0, []⟩ ⟨1, []⟩ h h
      (by decide) h1
    simp only [ptrLevel_mk] at h2
    simp only [Copy]
    rw [show copyFuel = 1501 + 1 from rfl]
    rw [h2]

/-- What a successful field loop produces, field by field: same length, an
unexported source field yields `(false, zero value)` in the copy, an exported
one yields `(true, c)` where `c` is a successful recursive copy of the source
field. -/
theorem copyFields_spec (copy : Val → St → Heap → CRes) :
    ∀ fs st h fs' st' h',
      copyFields copy fs st h = (.ok fs', st', h') →
      fs'.length = fs.length ∧
      ∀ (i : Nat) (hi : i < fs.length) (hi' : i < fs'.length),
        ((fs.get ⟨i, hi⟩).1 = false →
          fs'.get ⟨i, hi'⟩ = (false, zeroOf (fs.get ⟨i, hi⟩).2)) ∧
        ((fs.get ⟨i, hi⟩).1 = true →
          ∃ c stA hA stB hB, fs'.get ⟨i, hi'⟩ = (true, c) ∧
            copy (fs.get ⟨i, hi⟩).2 stA hA = (.ok c, stB, hB)) := by
  intro fs
  induction fs with
  | nil =>
    intro st h fs' st' h' heq
    simp only [copyFields, Prod.mk.injEq, Except.ok.injEq] at heq
    obtain ⟨hfs, -, -⟩ := heq
    subst hfs
    exact ⟨rfl, fun i hi _ => absurd hi (by simp)⟩
  | cons f fs ih =>
    intro st h fs' st' h' heq
    obtain ⟨b, v⟩ := f
    cases b with
    | false =>
      simp only [copyFields, Bool.false_eq_true, if_false] at heq
      split at heq
      · simp at heq
      · next cs st1 h1 hrec =>
        simp only [Prod.mk.injEq, Except.ok.injEq] at heq
        obtain ⟨hfs, -, -⟩ := heq
        subst hfs
        obtain ⟨hlen, hspec⟩ := ih st h cs st1 h1 hrec
        refine ⟨by simp [hlen], ?_⟩
        intro i hi hi'
        match i, hi, hi' with
        | 0, _, _ =>
          exact ⟨fun _ => by simp [List.get], fun htr => by simp [List.get] at htr⟩
        | i + 1, hi, hi' =>
          have hh := hspec i (by simpa using Nat.lt_of_succ_lt_succ hi)
            (by simpa using Nat.lt_of_succ_lt_succ hi')
          simpa [List.get] using hh
    | true =>
      simp only [copyFields, if_true] at heq
      split at heq
      · simp at heq
      · next c st1 h1 hcopy =>
        split at heq
        · simp at heq
        · next cs st2 h2 hrec =>
          simp only [Prod.mk.injEq, Except.ok.injEq] at heq
          obtain ⟨hfs, -, -⟩ := heq
          subst hfs
          obtain ⟨hlen, hspec⟩ := ih st1 h1 cs st2 h2 hrec
          refine ⟨by simp [hlen], ?_⟩
          intro i hi hi'
          match i, hi, hi' with
          | 0, _, _ =>
            refine ⟨fun hfa => by simp [List.get] at hfa ⊢, ?_⟩
            intro _
            exact ⟨c, st, h, st1, h1, by simp [List.get], hcopy⟩
          | i + 1, hi, hi' =>
            have hh := hspec i (by simpa using Nat.lt_of_succ_lt_succ hi)
              (by simpa using Nat.lt_of_succ_lt_succ hi')
            simpa [List.get] using hh

/-- C7: when a struct node is copied successfully, the copy is a struct of the
same field count, every unexported field of the copy holds the zero value of
its type regardless of the source's value (skipped, never partially copied),
and every exported field is the result of a recursive copy of the matching
source field (the field loop walks the fields in declared order). -/
theorem c7_unexported_fields :
    ∀ (fuel : Nat) (fs : List (Bool × Val)) (st st2 : St) (h h2 : Heap) (out : Val),
      copyRecursive (fuel + 1) (.struct fs) st h = (.ok out, st2, h2) →
      ∃ fs', out = .struct fs' ∧ fs'.length = fs.length ∧
        ∀ (i : Nat) (hi : i < fs.length) (hi' : i < fs'.length),
          ((fs.get ⟨i, hi⟩).1 = false →
            fs'.get ⟨i, hi'⟩ = (false, zeroOf (fs.get ⟨i, hi⟩).2)) ∧
          ((fs.get ⟨i, hi⟩).1 = true →
            ∃ c stA hA stB hB, fs'.get ⟨i, hi'⟩ = (true, c) ∧
              copyRecursive fuel (fs.get ⟨i, hi⟩).2 stA hA = (.ok c, stB, hB)) := by
  intro fuel fs st st2 h h2 out heq
  simp only [copyRecursive] at heq
  have h1 := congrArg Prod.fst heq
  simp only [copyBody] at h1
  split at h1
  · simp at h1
  · split at h1
    · simp at h1
    · next fs'' st' h' hrec =>
      simp only [Except.ok.injEq] at h1
      obtain ⟨hlen, hspec⟩ := copyFields_spec (copyRecursive fuel) fs _ h fs'' st' h' hrec
      exact ⟨fs'', h1.symm, hlen, hspec⟩

/-- Witness for C7 at a concrete input: a struct with one exported and one
unexported field copies the exported one and zeroes the unexported one. -/
theorem c7_unexported_fields_witness :
    copyRecursive 2 (.struct [(true, .prim 1), (false, .prim 2)]) ⟨0, []⟩ ⟨0, []⟩ =
      (.ok (.struct [(true, .prim 1), (false, .prim 0)]), ⟨0, []⟩, ⟨0, []⟩) ∧
    ∃ fs', (Val.struct [(true, .prim 1), (false, .prim 0)]) = .struct fs' ∧
      fs'.length = ([(true, Val.prim 1), (false, Val.prim 2)] : List (Bool × Val)).length ∧
      ∀ (i : Nat) (hi : i < ([(true, Val.prim 1), (false, Val.prim 2)] : List (Bool × Val)).length)
        (hi' : i < fs'.length),
        ((([(true, Val.prim 1), (false, Val.prim 2)] : List (Bool × Val)).get ⟨i, hi⟩).1 = false →
          fs'.get ⟨i, hi'⟩ =
            (false, zeroOf (([(true, Val.prim 1), (false, Val.prim 2)] : List (Bool × Val)).get ⟨i, hi⟩).2)) ∧
        ((([(true, Val.prim 1), (false, Val.prim 2)] : List (Bool × Val)).get ⟨i, hi⟩).1 = true →
          ∃ c stA hA stB hB, fs'.get ⟨i, hi'⟩ = (true, c) ∧
            copyRecursive 1 (([(true, Val.prim 1), (false, Val.prim 2)] : List (Bool × Val)).get ⟨i, hi⟩).2 stA hA =
              (.ok c, stB, hB)) :=
  ⟨rfl, c7_unexported_fields 1 [(true, .prim 1), (false, .prim 2)] ⟨0, []⟩ ⟨0, []⟩
    ⟨0, []⟩ ⟨0, []⟩ (.struct [(true, .prim 1), (false, .prim 0)]) rfl⟩

mutual
/-- The mutable heap locations a value refers to directly (pointer targets,
slice backings, map tables).  Opaque-shared values (functions, channels) and
the timestamp's shared time-zone reference are deliberately excluded: the
source shares them by design. -/
def valLocs : Val → List Nat
  | .prim _ => []
  | .ptr none => []
  | .ptr (some l) => [l]
  | .slice none => []
  | .slice (some (l, _)) => [l]
  | .array vs => listLocs vs
  | .struct fs => fieldLocs fs
  | .map none => []
  | .map (some l) => [l]
  | .iface none => []
  | .iface (some w) => valLocs w
  | .func _ => []
  | .chan _ => []
  | .timeV _ _ => []
  | .custom (.ok w) => valLocs w
  | .custom (.error _) => []

def listLocs : List Val → List Nat
  | [] => []
  | v :: vs => valLocs v ++ listLocs vs

def fieldLocs : List (Bool × Val) → List Nat
  | [] => []
  | f :: fs => valLocs f.2 ++ fieldLocs fs
end

/-- Locations referred to by a map table. -/
def pairLocs : List (Val × Val) → List Nat
  | [] => []
  | p :: ps => valLocs p.1 ++ valLocs p.2 ++ pairLocs ps

/-- Locations referred to by a heap cell. -/
def cellLocs : Cell → List Nat
  | .cell w => valLocs w
  | .cells bs => listLocs bs
  | .table ps => pairLocs ps

mutual
/-- No custom-copy hook anywhere in the value. -/
def hookFree : Val → Bool
  | .custom _ => false
  | .array vs => listHookFree vs
  | .struct fs => fieldsHookFree fs
  | .iface (some w) => hookFree w
  | _ => true

def listHookFree : List Val → Bool
  | [] => true
  | v :: vs => hookFree v && listHookFree vs

def fieldsHookFree : List (Bool × Val) → Bool
  | [] => true
  | f :: fs => hookFree f.2 && fieldsHookFree fs
end

/-- No custom-copy hook in a map table. -/
def pairsHookFree : List (Val × Val) → Bool
  | [] => true
  | p :: ps => hookFree p.1 && hookFree p.2 && pairsHookFree ps

/-- No custom-copy hook in a heap cell. -/
def cellHookFree : Cell → Bool
  | .cell w => hookFree w
  | .cells bs => listHookFree bs
  | .table ps => pairsHookFree ps

/-- All listed locations are below `n` (already-allocated storage). -/
abbrev LocsLT (n : Nat) (ls : List Nat) : Prop := ∀ l ∈ ls, l < n

/-- All listed locations are at least `n` (freshly allocated storage). -/
abbrev LocsGE (n : Nat) (ls : List Nat) : Prop := ∀ l ∈ ls, n ≤ l

/-- Heap wellformedness: every cell lives below the allocation counter and
only refers to locations below it. -/
abbrev HeapWF (h : Heap) : Prop :=
  ∀ e ∈ h.mem, e.1 < h.next ∧ LocsLT h.next (cellLocs e.2)

/-- No custom-copy hook anywhere in the heap. -/
abbrev HeapHookFree (h : Heap) : Prop := ∀ e ∈ h.mem, cellHookFree e.2 = true

/-- `h'` extends `h`: the counter grew, old cells read the same, the heap is
still wellformed and hook-free, and every cell at or above the old counter
(i.e. allocated during the extension) refers only to locations at or above
the old counter. -/
def HeapExtends (h h' : Heap) : Prop :=
  h.next ≤ h'.next ∧
  (∀ l, l < h.next → lookupC h' l = lookupC h l) ∧
  HeapWF h' ∧ HeapHookFree h' ∧
  (∀ l c, h.next ≤ l → lookupC h' l = some c → LocsGE h.next (cellLocs c))

theorem LocsLT_mono {n m : Nat} {ls : List Nat} (hnm : n ≤ m) (h : LocsLT n ls) :
    LocsLT m ls := fun l hl => lt_of_lt_of_le (h l hl) hnm

theorem LocsGE_mono {n m : Nat} {ls : List Nat} (hmn : m ≤ n) (h : LocsGE n ls) :
    LocsGE m ls := fun l hl => le_trans hmn (h l hl)

theorem LocsLT_append {n : Nat} {xs ys : List Nat} (hx : LocsLT n xs) (hy : LocsLT n ys) :
    LocsLT n (xs ++ ys) := by
  intro l hl
  rcases List.mem_append.mp hl with hm | hm
  · exact hx l hm
  · exact hy l hm

theorem LocsGE_append {n : Nat} {xs ys : List Nat} (hx : LocsGE n xs) (hy : LocsGE n ys) :
    LocsGE n (xs ++ ys) := by
  intro l hl
  rcases List.mem_append.mp hl with hm | hm
  · exact hx l hm
  · exact hy l hm

/-- A successful lookup comes from a heap entry with that key. -/
theorem lookupC_mem {h : Heap} {l : Nat} {c : Cell} (hl : lookupC h l = some c) :
    (l, c) ∈ h.mem := by
  simp only [lookupC, Option.map_eq_some'] at hl
  obtain ⟨e, he, hec⟩ := hl
  have hmem := List.mem_of_find?_eq_some he
  have hkey := List.find?_some he
  simp only [beq_iff_eq] at hkey
  have : e = (l, c) := by
    obtain ⟨e1, e2⟩ := e
    simp only at hkey hec
    rw [hkey, hec]
  rw [← this]
  exact hmem

theorem HeapWF_lookup {h : Heap} {l : Nat} {c : Cell} (hwf : HeapWF h)
    (hl : lookupC h l = some c) : l < h.next ∧ LocsLT h.next (cellLocs c) :=
  hwf (l, c) (lookupC_mem hl)

theorem HeapHookFree_lookup {h : Heap} {l : Nat} {c : Cell} (hhf : HeapHookFree h)
    (hl : lookupC h l = some c) : cellHookFree c = true :=
  hhf (l, c) (lookupC_mem hl)

theorem lookupC_alloc_same (h : Heap) (c : Cell) :
    lookupC (alloc h c).2 h.next = some c := by
  simp [lookupC, alloc, List.find?]

theorem lookupC_alloc_other (h : Heap) (c : Cell) {l : Nat} (hne : l ≠ h.next) :
    lookupC (alloc h c).2 l = lookupC h l := by
  have hb : (h.next == l) = false := by
    simp only [beq_eq_false_iff_ne]
    exact Ne.symm hne
  simp [lookupC, alloc, List.find?, hb]

theorem HeapExtends_refl {h : Heap} (hwf : HeapWF h) (hhf : HeapHookFree h) :
    HeapExtends h h := by
  refine ⟨le_refl _, fun l _ => rfl, hwf, hhf, ?_⟩
  intro l c hge hl
  exact absurd (HeapWF_lookup hwf hl).1 (by omega)

theorem HeapExtends_trans {h1 h2 h3 : Heap} (h12 : HeapExtends h1 h2)
    (h23 : HeapExtends h2 h3) : HeapExtends h1 h3 := by
  obtain ⟨hn12, hold12, hwf2, hhf2, hfresh12⟩ := h12
  obtain ⟨hn23, hold23, hwf3, hhf3, hfresh23⟩ := h23
  refine ⟨le_trans hn12 hn23, ?_, hwf3, hhf3, ?_⟩
  · intro l hl
    rw [hold23 l (lt_of_lt_of_le hl hn12), hold12 l hl]
  · intro l c hge hl
    by_cases hcase : l < h2.next
    · rw [hold23 l hcase] at hl
      exact hfresh12 l c hge hl
    · exact LocsGE_mono hn12 (hfresh23 l c (by omega) hl)

/-- Allocating a cell whose contents sit between the base counter and the
current one preserves the extension. -/
theorem HeapExtends_alloc {h h' : Heap} (he : HeapExtends h h') (c : Cell)
    (hge : LocsGE h.next (cellLocs c)) (hlt : LocsLT h'.next (cellLocs c))
    (hhf : cellHookFree c = true) :
    HeapExtends h (alloc h' c).2 := by
  obtain ⟨hn, hold, hwf, hhf', hfresh⟩ := he
  refine ⟨Nat.le_succ_of_le hn, ?_, ?_, ?_, ?_⟩
  · intro l hl
    rw [lookupC_alloc_other h' c (by omega)]
    exact hold l hl
  · intro e hmem
    simp only [alloc] at hmem
    rcases List.mem_cons.mp hmem with hcase | hcase
    · subst hcase
      exact ⟨Nat.lt_succ_self h'.next, LocsLT_mono (Nat.le_succ _) hlt⟩
    · obtain ⟨he1, he2⟩ := hwf e hcase
      exact ⟨Nat.lt_succ_of_lt he1, LocsLT_mono (Nat.le_succ _) he2⟩
  · intro e hmem
    simp only [alloc] at hmem
    rcases List.mem_cons.mp hmem with hcase | hcase
    · subst hcase
      exact hhf
    · exact hhf' e hcase
  · intro l c' hge' hl
    by_cases hcase : l = h'.next
    · subst hcase
      rw [lookupC_alloc_same] at hl
      cases hl
      exact hge
    · rw [lookupC_alloc_other h' c hcase] at hl
      exact hfresh l c' hge' hl

mutual
/-- The zero value of a hook-free value refers to no heap locations (all its
reference-like parts are nil). -/
theorem zeroOf_locs : ∀ v : Val, hookFree v = true → valLocs (zeroOf v) = []
  | .prim _, _ => rfl
  | .ptr _, _ => rfl
  | .slice _, _ => rfl
  | .array vs, hf => by
    simp only [zeroOf, valLocs]
    exact zeroList_locs vs (by simpa [hookFree] using hf)
  | .struct fs, hf => by
    simp only [zeroOf, valLocs]
    exact zeroFields_locs fs (by simpa [hookFree] using hf)
  | .map _, _ => rfl
  | .iface _, _ => rfl
  | .func _, _ => rfl
  | .chan _, _ => rfl
  | .timeV _ _, _ => rfl
  | .custom _, hf => by simp [hookFree] at hf

theorem zeroList_locs : ∀ vs : List Val, listHookFree vs = true → listLocs (zeroList vs) = []
  | [], _ => rfl
  | v :: vs, hf => by
    simp only [listHookFree, Bool.and_eq_true] at hf
    simp only [zeroList, listLocs, zeroOf_locs v hf.1, zeroList_locs vs hf.2, List.nil_append]

theorem zeroFields_locs : ∀ fs : List (Bool × Val), fieldsHookFree fs = true →
    fieldLocs (zeroFields fs) = []
  | [], _ => rfl
  | f :: fs, hf => by
    simp only [fieldsHookFree, Bool.and_eq_true] at hf
    simp only [zeroFields, fieldLocs, zeroOf_locs f.2 hf.1, zeroFields_locs fs hf.2,
      List.nil_append]
end

mutual
/-- The zero value of a hook-free value is hook-free. -/
theorem zeroOf_hookFree : ∀ v : Val, hookFree v = true → hookFree (zeroOf v) = true
  | .prim _, _ => rfl
  | .ptr _, _ => rfl
  | .slice _, _ => rfl
  | .array vs, hf => by
    simp only [zeroOf, hookFree]
    exact zeroList_hookFree vs (by simpa [hookFree] using hf)
  | .struct fs, hf => by
    simp only [zeroOf, hookFree]
    exact zeroFields_hookFree fs (by simpa [hookFree] using hf)
  | .map _, _ => rfl
  | .iface _, _ => rfl
  | .func _, _ => rfl
  | .chan _, _ => rfl
  | .timeV _ _, _ => rfl
  | .custom _, hf => by simp [hookFree] at hf

theorem zeroList_hookFree : ∀ vs : List Val, listHookFree vs = true →
    listHookFree (zeroList vs) = true
  | [], _ => rfl
  | v :: vs, hf => by
    simp only [listHookFree, Bool.and_eq_true] at hf
    simp only [zeroList, listHookFree, Bool.and_eq_true]
    exact ⟨zeroOf_hookFree v hf.1, zeroList_hookFree vs hf.2⟩

theorem zeroFields_hookFree : ∀ fs : List (Bool × Val), fieldsHookFree fs = true →
    fieldsHookFree (zeroFields fs) = true
  | [], _ => rfl
  | f :: fs, hf => by
    simp only [fieldsHookFree, Bool.and_eq_true] at hf
    simp only [zeroFields, fieldsHookFree, Bool.and_eq_true]
    exact ⟨zeroOf_hookFree f.2 hf.1, zeroFields_hookFree fs hf.2⟩
end

theorem listLocs_append : ∀ xs ys : List Val, listLocs (xs ++ ys) = listLocs xs ++ listLocs ys
  | [], ys => by simp [listLocs]
  | x :: xs, ys => by
    show valLocs x ++ listLocs (xs ++ ys) = (valLocs x ++ listLocs xs) ++ listLocs ys
    rw [listLocs_append xs ys, List.append_assoc]

theorem listHookFree_take : ∀ (n : Nat) (bs : List Val), listHookFree bs = true →
    listHookFree (bs.take n) = true
  | 0, _, _ => rfl
  | _ + 1, [], _ => rfl
  | n + 1, b :: bs, hf => by
    simp only [listHookFree, Bool.and_eq_true] at hf
    simp only [List.take, listHookFree, Bool.and_eq_true]
    exact ⟨hf.1, listHookFree_take n bs hf.2⟩

theorem listHookFree_drop : ∀ (n : Nat) (bs : List Val), listHookFree bs = true →
    listHookFree (bs.drop n) = true
  | 0, _, hf => hf
  | _ + 1, [], _ => rfl
  | n + 1, _ :: bs, hf => by
    simp only [listHookFree, Bool.and_eq_true] at hf
    exact listHookFree_drop n bs hf.2

theorem listLocs_take_sub : ∀ (n : Nat) (bs : List Val), ∀ x ∈ listLocs (List.take n bs),
    x ∈ listLocs bs
  | 0, _, x, hx => by simp [List.take, listLocs] at hx
  | _ + 1, [], x, hx => by simp [List.take, listLocs] at hx
  | n + 1, b :: bs, x, hx => by
    simp only [List.take, listLocs, List.mem_append] at hx ⊢
    rcases hx with hx | hx
    · exact Or.inl hx
    · exact Or.inr (listLocs_take_sub n bs x hx)

theorem mem_listLocs_of_mem : ∀ {vs : List Val} {v : Val} {x : Nat},
    v ∈ vs → x ∈ valLocs v → x ∈ listLocs vs := by
  intro vs
  induction vs with
  | nil => intro v x hv _; exact absurd hv (List.not_mem_nil v)
  | cons w vs ih =>
    intro v x hv hx
    simp only [listLocs, List.mem_append]
    rcases List.mem_cons.mp hv with hcase | hcase
    · exact Or.inl (hcase ▸ hx)
    · exact Or.inr (ih hcase hx)

theorem mem_fieldLocs_of_mem : ∀ {fs : List (Bool × Val)} {f : Bool × Val} {x : Nat},
    f ∈ fs → x ∈ valLocs f.2 → x ∈ fieldLocs fs := by
  intro fs
  induction fs with
  | nil => intro f x hf _; exact absurd hf (List.not_mem_nil f)
  | cons g fs ih =>
    intro f x hf hx
    simp only [fieldLocs, List.mem_append]
    rcases List.mem_cons.mp hf with hcase | hcase
    · exact Or.inl (hcase ▸ hx)
    · exact Or.inr (ih hcase hx)

theorem mem_pairLocs_fst : ∀ {ps : List (Val × Val)} {p : Val × Val} {x : Nat},
    p ∈ ps → x ∈ valLocs p.1 → x ∈ pairLocs ps := by
  intro ps
  induction ps with
  | nil => intro p x hp _; exact absurd hp (List.not_mem_nil p)
  | cons q ps ih =>
    intro p x hp hx
    simp only [pairLocs, List.mem_append]
    rcases List.mem_cons.mp hp with hcase | hcase
    · exact Or.inl (Or.inl (hcase ▸ hx))
    · exact Or.inr (ih hcase hx)

theorem mem_pairLocs_snd : ∀ {ps : List (Val × Val)} {p : Val × Val} {x : Nat},
    p ∈ ps → x ∈ valLocs p.2 → x ∈ pairLocs ps := by
  intro ps
  induction ps with
  | nil => intro p x hp _; exact absurd hp (List.not_mem_nil p)
  | cons q ps ih =>
    intro p x hp hx
    simp only [pairLocs, List.mem_append]
    rcases List.mem_cons.mp hp with hcase | hcase
    · exact Or.inl (Or.inr (hcase ▸ hx))
    · exact Or.inr (ih hcase hx)

/-- The heap contract of one copy call: the heap extends (old cells preserved,
new cells fresh and self-contained), and a successful result is hook-free and
refers only to storage allocated during the call. -/
abbrev GoodCopy (h : Heap) (out : CRes) : Prop :=
  HeapExtends h out.2.2 ∧
  ∀ c, out.1 = .ok c → hookFree c = true ∧ LocsGE h.next (valLocs c) ∧
    LocsLT out.2.2.next (valLocs c)

/-- The heap contract, as an assumption about the recursive copy function. -/
abbrev CopySpec (copy : Val → St → Heap → CRes) : Prop :=
  ∀ v st h, HeapWF h → HeapHookFree h → hookFree v = true →
    LocsLT h.next (valLocs v) → GoodCopy h (copy v st h)

/-- The element loop preserves the heap contract. -/
theorem copyList_heap (copy : Val → St → Heap → CRes) (hc : CopySpec copy) :
    ∀ vs st h, HeapWF h → HeapHookFree h → listHookFree vs = true →
      LocsLT h.next (listLocs vs) →
      HeapExtends h (copyList copy vs st h).2.2 ∧
      ∀ cs, (copyList copy vs st h).1 = .ok cs →
        listHookFree cs = true ∧ LocsGE h.next (listLocs cs) ∧
        LocsLT (copyList copy vs st h).2.2.next (listLocs cs) := by
  intro vs
  induction vs with
  | nil =>
    intro st h hwf hhf hvf hlt
    refine ⟨HeapExtends_refl hwf hhf, ?_⟩
    intro cs hcs
    simp only [copyList, Except.ok.injEq] at hcs
    subst hcs
    exact ⟨rfl, fun x hx => by simp [listLocs] at hx, fun x hx => by simp [listLocs] at hx⟩
  | cons v vs ih =>
    intro st h hwf hhf hvf hlt
    simp only [listHookFree, Bool.and_eq_true] at hvf
    have hlt1 : LocsLT h.next (valLocs v) := fun x hx =>
      hlt x (by simp only [listLocs, List.mem_append]; exact Or.inl hx)
    have hlt2 : LocsLT h.next (listLocs vs) := fun x hx =>
      hlt x (by simp only [listLocs, List.mem_append]; exact Or.inr hx)
    have h1 := hc v st h hwf hhf hvf.1 hlt1
    simp only [copyList]
    split
    · next e st' h' heq =>
      rw [heq] at h1
      exact ⟨h1.1, fun cs hcs => by simp at hcs⟩
    · next c st' h' heq =>
      rw [heq] at h1
      obtain ⟨hext1, hok1⟩ := h1
      obtain ⟨hcf, hcge, hclt⟩ := hok1 c rfl
      have h2 := ih st' h' hext1.2.2.1 hext1.2.2.2.1 hvf.2 (LocsLT_mono hext1.1 hlt2)
      split
      · next e st2 hq2 heq2 =>
        rw [heq2] at h2
        exact ⟨HeapExtends_trans hext1 h2.1, fun cs hcs => by simp at hcs⟩
      · next cs st2 hq2 heq2 =>
        rw [heq2] at h2
        obtain ⟨hext2, hok2⟩ := h2
        obtain ⟨hcsf, hcsge, hcslt⟩ := hok2 cs rfl
        refine ⟨HeapExtends_trans hext1 hext2, ?_⟩
        intro cs' hcs'
        simp only [Except.ok.injEq] at hcs'
        subst hcs'
        refine ⟨?_, ?_, ?_⟩
        · simp only [listHookFree, Bool.and_eq_true]
          exact ⟨hcf, hcsf⟩
        · intro x hx
          simp only [listLocs, List.mem_append] at hx
          rcases hx with hx | hx
          · exact hcge x hx
          · exact LocsGE_mono hext1.1 hcsge x hx
        · intro x hx
          simp only [listLocs, List.mem_append] at hx
          rcases hx with hx | hx
          · exact LocsLT_mono hext2.1 hclt x hx
          · exact hcslt x hx

/-- The field loop preserves the heap contract (skipped fields contribute
zero values, which refer to no storage at all). -/
theorem copyFields_heap (copy : Val → St → Heap → CRes) (hc : CopySpec copy) :
    ∀ fs st h, HeapWF h → HeapHookFree h → fieldsHookFree fs = true →
      LocsLT h.next (fieldLocs fs) →
      HeapExtends h (copyFields copy fs st h).2.2 ∧
      ∀ cs, (copyFields copy fs st h).1 = .ok cs →
        fieldsHookFree cs = true ∧ LocsGE h.next (fieldLocs cs) ∧
        LocsLT (copyFields copy fs st h).2.2.next (fieldLocs cs) := by
  intro fs
  induction fs with
  | nil =>
    intro st h hwf hhf hvf hlt
    refine ⟨HeapExtends_refl hwf hhf, ?_⟩
    intro cs hcs
    simp only [copyFields, Except.ok.injEq] at hcs
    subst hcs
    exact ⟨rfl, fun x hx => by simp [fieldLocs] at hx, fun x hx => by simp [fieldLocs] at hx⟩
  | cons f fs ih =>
    intro st h hwf hhf hvf hlt
    obtain ⟨b, v⟩ := f
    simp only [fieldsHookFree, Bool.and_eq_true] at hvf
    have hlt1 : LocsLT h.next (valLocs v) := fun x hx =>
      hlt x (by simp only [fieldLocs, List.mem_append]; exact Or.inl hx)
    have hlt2 : LocsLT h.next (fieldLocs fs) := fun x hx =>
      hlt x (by simp only [fieldLocs, List.mem_append]; exact Or.inr hx)
    cases b with
    | true =>
      have h1 := hc v st h hwf hhf hvf.1 hlt1
      simp only [copyFields, if_true]
      split
      · next e st' h' heq =>
        rw [heq] at h1
        exact ⟨h1.1, fun cs hcs => by simp at hcs⟩
      · next c st' h' heq =>
        rw [heq] at h1
        obtain ⟨hext1, hok1⟩ := h1
        obtain ⟨hcf, hcge, hclt⟩ := hok1 c rfl
        have h2 := ih st' h' hext1.2.2.1 hext1.2.2.2.1 hvf.2 (LocsLT_mono hext1.1 hlt2)
        split
        · next e st2 hq2 heq2 =>
          rw [heq2] at h2
          exact ⟨HeapExtends_trans hext1 h2.1, fun cs hcs => by simp at hcs⟩
        · next cs st2 hq2 heq2 =>
          rw [heq2] at h2
          obtain ⟨hext2, hok2⟩ := h2
          obtain ⟨hcsf, hcsge, hcslt⟩ := hok2 cs rfl
          refine ⟨HeapExtends_trans hext1 hext2, ?_⟩
          intro cs' hcs'
          simp only [Except.ok.injEq] at hcs'
          subst hcs'
          refine ⟨?_, ?_, ?_⟩
          · simp only [fieldsHookFree, Bool.and_eq_true]
            exact ⟨hcf, hcsf⟩
          · intro x hx
            simp only [fieldLocs, List.mem_append] at hx
            rcases hx with hx | hx
            · exact hcge x hx
            · exact LocsGE_mono hext1.1 hcsge x hx
          · intro x hx
            simp only [fieldLocs, List.mem_append] at hx
            rcases hx with hx | hx
            · exact LocsLT_mono hext2.1 hclt x hx
            · exact hcslt x hx
    | false =>
      have h2pre := ih st h hwf hhf hvf.2 hlt2
      simp only [copyFields, Bool.false_eq_true, if_false]
      split
      · next e st' h' heq =>
        rw [heq] at h2pre
        exact ⟨h2pre.1, fun cs hcs => by simp at hcs⟩
      · next cs st' h' heq =>
        rw [heq] at h2pre
        obtain ⟨hext, hok⟩ := h2pre
        obtain ⟨hcsf, hcsge, hcslt⟩ := hok cs rfl
        refine ⟨hext, ?_⟩
        intro cs' hcs'
        simp only [Except.ok.injEq] at hcs'
        subst hcs'
        refine ⟨?_, ?_, ?_⟩
        · simp only [fieldsHookFree, Bool.and_eq_true]
          exact ⟨zeroOf_hookFree v hvf.1, hcsf⟩
        · intro x hx
          simp only [fieldLocs, List.mem_append] at hx
          rcases hx with hx | hx
          · rw [zeroOf_locs v hvf.1] at hx
            exact absurd hx (List.not_mem_nil x)
          · exact hcsge x hx
        · intro x hx
          simp only [fieldLocs, List.mem_append] at hx
          rcases hx with hx | hx
          · rw [zeroOf_locs v hvf.1] at hx
            exact absurd hx (List.not_mem_nil x)
          · exact hcslt x hx

/-- The map-entry loop preserves the heap contract (value first, then key,
both deep-copied). -/
theorem copyPairs_heap (copy : Val → St → Heap → CRes) (hc : CopySpec copy) :
    ∀ ps st h, HeapWF h → HeapHookFree h → pairsHookFree ps = true →
      LocsLT h.next (pairLocs ps) →
      HeapExtends h (copyPairs copy ps st h).2.2 ∧
      ∀ cs, (copyPairs copy ps st h).1 = .ok cs →
        pairsHookFree cs = true ∧ LocsGE h.next (pairLocs cs) ∧
        LocsLT (copyPairs copy ps st h).2.2.next (pairLocs cs) := by
  intro ps
  induction ps with
  | nil =>
    intro st h hwf hhf hvf hlt
    refine ⟨HeapExtends_refl hwf hhf, ?_⟩
    intro cs hcs
    simp only [copyPairs, Except.ok.injEq] at hcs
    subst hcs
    exact ⟨rfl, fun x hx => by simp [pairLocs] at hx, fun x hx => by simp [pairLocs] at hx⟩
  | cons p ps ih =>
    intro st h hwf hhf hvf hlt
    obtain ⟨k, v⟩ := p
    simp only [pairsHookFree, Bool.and_eq_true] at hvf
    have hltk : LocsLT h.next (valLocs k) := fun x hx =>
      hlt x (by simp only [pairLocs, List.mem_append]; exact Or.inl (Or.inl hx))
    have hltv : LocsLT h.next (valLocs v) := fun x hx =>
      hlt x (by simp only [pairLocs, List.mem_append]; exact Or.inl (Or.inr hx))
    have hltp : LocsLT h.next (pairLocs ps) := fun x hx =>
      hlt x (by simp only [pairLocs, List.mem_append]; exact Or.inr hx)
    have h1 := hc v st h hwf hhf hvf.1.2 hltv
    simp only [copyPairs]
    split
    · next e st' h' heq =>
      rw [heq] at h1
      exact ⟨h1.1, fun cs hcs => by simp at hcs⟩
    · next cv st' h' heq =>
      rw [heq] at h1
      obtain ⟨hext1, hok1⟩ := h1
      obtain ⟨hvf', hvge, hvlt⟩ := hok1 cv rfl
      have h2 := hc k st' h' hext1.2.2.1 hext1.2.2.2.1 hvf.1.1 (LocsLT_mono hext1.1 hltk)
      split
      · next e st2 hq2 heq2 =>
        rw [heq2] at h2
        exact ⟨HeapExtends_trans hext1 h2.1, fun cs hcs => by simp at hcs⟩
      · next ck st2 hq2 heq2 =>
        rw [heq2] at h2
        obtain ⟨hext2, hok2⟩ := h2
        obtain ⟨hkf, hkge, hklt⟩ := hok2 ck rfl
        have h3 := ih st2 hq2 hext2.2.2.1 hext2.2.2.2.1 hvf.2
          (LocsLT_mono (le_trans hext1.1 hext2.1) hltp)
        split
        · next e st3 hq3 heq3 =>
          rw [heq3] at h3
          exact ⟨HeapExtends_trans hext1 (HeapExtends_trans hext2 h3.1),
            fun cs hcs => by simp at hcs⟩
        · next cs st3 hq3 heq3 =>
          rw [heq3] at h3
          obtain ⟨hext3, hok3⟩ := h3
          obtain ⟨hcsf, hcsge, hcslt⟩ := hok3 cs rfl
          refine ⟨HeapExtends_trans hext1 (HeapExtends_trans hext2 hext3), ?_⟩
          intro cs' hcs'
          simp only [Except.ok.injEq] at hcs'
          subst hcs'
          refine ⟨?_, ?_, ?_⟩
          · simp only [pairsHookFree, Bool.and_eq_true]
            exact ⟨⟨hkf, hvf'⟩, hcsf⟩
          · intro x hx
            simp only [pairLocs, List.mem_append] at hx
            rcases hx with (hx | hx) | hx
            · exact LocsGE_mono hext1.1 hkge x hx
            · exact hvge x hx
            · exact LocsGE_mono (le_trans hext1.1 hext2.1) hcsge x hx
          · intro x hx
            simp only [pairLocs, List.mem_append] at hx
            rcases hx with (hx | hx) | hx
            · exact LocsLT_mono hext3.1 hklt x hx
            · exact LocsLT_mono (le_trans hext2.1 hext3.1) hvlt x hx
            · exact hcslt x hx

theorem listHookFree_append : ∀ xs ys : List Val,
    listHookFree xs = true → listHookFree ys = true → listHookFree (xs ++ ys) = true
  | [], ys, _, hy => hy
  | x :: xs, ys, hx, hy => by
    simp only [listHookFree, Bool.and_eq_true] at hx
    show listHookFree (x :: (xs ++ ys)) = true
    simp only [listHookFree, Bool.and_eq_true]
    exact ⟨hx.1, listHookFree_append xs ys hx.2 hy⟩

/-- The pointer-target helper preserves the heap contract: the fresh target
cell holds the recursively copied pointee. -/
theorem ptrTarget_heap (copy : Val → St → Heap → CRes) (hc : CopySpec copy) :
    ∀ op st h, HeapWF h → HeapHookFree h → LocsLT h.next (valLocs (.ptr op)) →
      GoodCopy h (ptrTarget copy op st h) := by
  intro op st h hwf hhf hlt
  match op with
  | none =>
    refine ⟨HeapExtends_refl hwf hhf, ?_⟩
    intro c hcs
    simp only [ptrTarget, Except.ok.injEq] at hcs
    subst hcs
    exact ⟨rfl, fun x hx => by simp [valLocs] at hx, fun x hx => by simp [valLocs] at hx⟩
  | some l =>
    simp only [ptrTarget]
    split
    · next w heqw =>
      have hcellw := HeapWF_lookup hwf heqw
      have hwfw : LocsLT h.next (valLocs w) := hcellw.2
      have hhfw : hookFree w = true := HeapHookFree_lookup hhf heqw
      have h1 := hc w st h hwf hhf hhfw hwfw
      split
      · next e st' h' heq =>
        rw [heq] at h1
        exact ⟨h1.1, fun c hcs => by simp at hcs⟩
      · next cw st' h' heq =>
        rw [heq] at h1
        obtain ⟨hext1, hok1⟩ := h1
        obtain ⟨hcf, hcge, hclt⟩ := hok1 cw rfl
        refine ⟨HeapExtends_alloc hext1 (.cell cw) hcge hclt hcf, ?_⟩
        intro c hcs
        simp only [Except.ok.injEq] at hcs
        subst hcs
        refine ⟨rfl, ?_, ?_⟩
        · intro x hx
          simp only [valLocs, List.mem_singleton] at hx
          subst hx
          exact hext1.1
        · intro x hx
          simp only [valLocs, List.mem_singleton] at hx
          subst hx
          exact Nat.lt_succ_self _
    · next heqw =>
      exact ⟨HeapExtends_refl hwf hhf, fun c hcs => by simp at hcs⟩

/-- The slice-backing helper preserves the heap contract: the fresh backing
array holds the copied prefix followed by zero values. -/
theorem sliceBacking_heap (copy : Val → St → Heap → CRes) (hc : CopySpec copy) :
    ∀ os st h, HeapWF h → HeapHookFree h → LocsLT h.next (valLocs (.slice os)) →
      GoodCopy h (sliceBacking copy os st h) := by
  intro os st h hwf hhf hlt
  match os with
  | none =>
    refine ⟨HeapExtends_refl hwf hhf, ?_⟩
    intro c hcs
    simp only [sliceBacking, Except.ok.injEq] at hcs
    subst hcs
    exact ⟨rfl, fun x hx => by simp [valLocs] at hx, fun x hx => by simp [valLocs] at hx⟩
  | some (l, len) =>
    simp only [sliceBacking]
    split
    · next bs heqw =>
      have hcellw := HeapWF_lookup hwf heqw
      have hbslt : LocsLT h.next (listLocs bs) := hcellw.2
      have hbsf : listHookFree bs = true := HeapHookFree_lookup hhf heqw
      have htakef := listHookFree_take len bs hbsf
      have htakelt : LocsLT h.next (listLocs (bs.take len)) :=
        fun x hx => hbslt x (listLocs_take_sub len bs x hx)
      have h1 := copyList_heap copy hc (bs.take len) st h hwf hhf htakef htakelt
      split
      · next e st' h' heq =>
        rw [heq] at h1
        exact ⟨h1.1, fun c hcs => by simp at hcs⟩
      · next cs st' h' heq =>
        rw [heq] at h1
        obtain ⟨hext1, hok1⟩ := h1
        obtain ⟨hcsf, hcsge, hcslt⟩ := hok1 cs rfl
        have hdropf := listHookFree_drop len bs hbsf
        have hzlocs : listLocs (zeroList (bs.drop len)) = [] := zeroList_locs _ hdropf
        have hcellge : LocsGE h.next (cellLocs (.cells (cs ++ zeroList (bs.drop len)))) := by
          intro x hx
          simp only [cellLocs, listLocs_append, List.mem_append, hzlocs] at hx
          rcases hx with hx | hx
          · exact hcsge x hx
          · exact absurd hx (List.not_mem_nil x)
        have hcelllt : LocsLT h'.next (cellLocs (.cells (cs ++ zeroList (bs.drop len)))) := by
          intro x hx
          simp only [cellLocs, listLocs_append, List.mem_append, hzlocs] at hx
          rcases hx with hx | hx
          · exact hcslt x hx
          · exact absurd hx (List.not_mem_nil x)
        have hcellhf : cellHookFree (.cells (cs ++ zeroList (bs.drop len))) = true := by
          simp only [cellHookFree]
          exact listHookFree_append _ _ hcsf (zeroList_hookFree _ hdropf)
        refine ⟨HeapExtends_alloc hext1 _ hcellge hcelllt hcellhf, ?_⟩
        intro c hcs
        simp only [Except.ok.injEq] at hcs
        subst hcs
        refine ⟨rfl, ?_, ?_⟩
        · intro x hx
          simp only [valLocs, List.mem_singleton] at hx
          subst hx
          exact hext1.1
        · intro x hx
          simp only [valLocs, List.mem_singleton] at hx
          subst hx
          exact Nat.lt_succ_self _
    · next heqw =>
      exact ⟨HeapExtends_refl hwf hhf, fun c hcs => by simp at hcs⟩

/-- The map-table helper preserves the heap contract: the fresh table holds
deep-copied keys and values. -/
theorem mapTable_heap (copy : Val → St → Heap → CRes) (hc : CopySpec copy) :
    ∀ om st h, HeapWF h → HeapHookFree h → LocsLT h.next (valLocs (.map om)) →
      GoodCopy h (mapTable copy om st h) := by
  intro om st h hwf hhf hlt
  match om with
  | none =>
    refine ⟨HeapExtends_refl hwf hhf, ?_⟩
    intro c hcs
    simp only [mapTable, Except.ok.injEq] at hcs
    subst hcs
    exact ⟨rfl, fun x hx => by simp [valLocs] at hx, fun x hx => by simp [valLocs] at hx⟩
  | some l =>
    simp only [mapTable]
    split
    · next ps heqw =>
      have hcellw := HeapWF_lookup hwf heqw
      have hpslt : LocsLT h.next (pairLocs ps) := hcellw.2
      have hpsf : pairsHookFree ps = true := HeapHookFree_lookup hhf heqw
      have h1 := copyPairs_heap copy hc ps st h hwf hhf hpsf hpslt
      split
      · next e st' h' heq =>
        rw [heq] at h1
        exact ⟨h1.1, fun c hcs => by simp at hcs⟩
      · next ps' st' h' heq =>
        rw [heq] at h1
        obtain ⟨hext1, hok1⟩ := h1
        obtain ⟨hpsf', hpsge, hpslt'⟩ := hok1 ps' rfl
        refine ⟨HeapExtends_alloc hext1 (.table ps') hpsge hpslt' hpsf', ?_⟩
        intro c hcs
        simp only [Except.ok.injEq] at hcs
        subst hcs
        refine ⟨rfl, ?_, ?_⟩
        · intro x hx
          simp only [valLocs, List.mem_singleton] at hx
          subst hx
          exact hext1.1
        · intro x hx
          simp only [valLocs, List.mem_singleton] at hx
          subst hx
          exact Nat.lt_succ_self _
    · next heqw =>
      exact ⟨HeapExtends_refl hwf hhf, fun c hcs => by simp at hcs⟩

/-- `copyBody` satisfies the heap contract whenever the recursive calls it
makes do. -/
theorem copyBody_heap (copy : Val → St → Heap → CRes) (hc : CopySpec copy) :
    ∀ v st h, HeapWF h → HeapHookFree h → hookFree v = true →
      LocsLT h.next (valLocs v) → GoodCopy h (copyBody copy v st h) := by
  intro v st h hwf hhf hfv hlt
  simp only [copyBody]
  split
  · exact ⟨HeapExtends_refl hwf hhf, fun c hcs => by simp at hcs⟩
  · match v with
    | .prim n =>
      refine ⟨HeapExtends_refl hwf hhf, ?_⟩
      intro c hcs
      simp only [Except.ok.injEq] at hcs
      subst hcs
      exact ⟨rfl, fun x hx => by simp [valLocs] at hx, fun x hx => by simp [valLocs] at hx⟩
    | .func o =>
      refine ⟨HeapExtends_refl hwf hhf, ?_⟩
      intro c hcs
      simp only [Except.ok.injEq] at hcs
      subst hcs
      exact ⟨rfl, fun x hx => by simp [valLocs] at hx, fun x hx => by simp [valLocs] at hx⟩
    | .chan o =>
      refine ⟨HeapExtends_refl hwf hhf, ?_⟩
      intro c hcs
      simp only [Except.ok.injEq] at hcs
      subst hcs
      exact ⟨rfl, fun x hx => by simp [valLocs] at hx, fun x hx => by simp [valLocs] at hx⟩
    | .timeV t loc =>
      refine ⟨HeapExtends_refl hwf hhf, ?_⟩
      intro c hcs
      simp only [Except.ok.injEq] at hcs
      subst hcs
      exact ⟨rfl, fun x hx => by simp [valLocs] at hx, fun x hx => by simp [valLocs] at hx⟩
    | .custom res => exact absurd hfv (by simp [hookFree])
    | .iface ov =>
      match ov with
      | none =>
        refine ⟨HeapExtends_refl hwf hhf, ?_⟩
        intro c hcs
        simp only [Except.ok.injEq] at hcs
        subst hcs
        exact ⟨rfl, fun x hx => by simp [valLocs] at hx, fun x hx => by simp [valLocs] at hx⟩
      | some w =>
        simp only [hookFree] at hfv
        simp only [valLocs] at hlt
        have h1 := hc w st h hwf hhf hfv hlt
        simp only
        split
        · next e st' h' heq =>
          rw [heq] at h1
          exact ⟨h1.1, fun c hcs => by simp at hcs⟩
        · next cw st' h' heq =>
          rw [heq] at h1
          obtain ⟨hext1, hok1⟩ := h1
          obtain ⟨hcf, hcge, hclt⟩ := hok1 cw rfl
          refine ⟨hext1, ?_⟩
          intro c hcs
          simp only [Except.ok.injEq] at hcs
          subst hcs
          exact ⟨by simpa [hookFree] using hcf, by simpa [valLocs] using hcge,
            by simpa [valLocs] using hclt⟩
    | .struct fs =>
      simp only [hookFree] at hfv
      simp only [valLocs] at hlt
      have h1 := copyFields_heap copy hc fs st h hwf hhf hfv hlt
      simp only
      split
      · next e st' h' heq =>
        rw [heq] at h1
        exact ⟨h1.1, fun c hcs => by simp at hcs⟩
      · next fs' st' h' heq =>
        rw [heq] at h1
        obtain ⟨hext1, hok1⟩ := h1
        obtain ⟨hcf, hcge, hclt⟩ := hok1 fs' rfl
        refine ⟨hext1, ?_⟩
        intro c hcs
        simp only [Except.ok.injEq] at hcs
        subst hcs
        exact ⟨by simpa [hookFree] using hcf, by simpa [valLocs] using hcge,
          by simpa [valLocs] using hclt⟩
    | .array vs =>
      simp only [hookFree] at hfv
      simp only [valLocs] at hlt
      have h1 := copyList_heap copy hc vs st h hwf hhf hfv hlt
      simp only
      split
      · next e st' h' heq =>
        rw [heq] at h1
        exact ⟨h1.1, fun c hcs => by simp at hcs⟩
      · next cs st' h' heq =>
        rw [heq] at h1
        obtain ⟨hext1, hok1⟩ := h1
        obtain ⟨hcf, hcge, hclt⟩ := hok1 cs rfl
        refine ⟨hext1, ?_⟩
        intro c hcs
        simp only [Except.ok.injEq] at hcs
        subst hcs
        exact ⟨by simpa [hookFree] using hcf, by simpa [valLocs] using hcge,
          by simpa [valLocs] using hclt⟩
    | .ptr op =>
      simp only
      split
      · split
        · exact ⟨HeapExtends_refl hwf hhf, fun c hcs => by simp at hcs⟩
        · have h1 := ptrTarget_heap copy hc op
            ⟨st.ptrLevel, RefId.ptrId op :: st.ptrSeen⟩ h hwf hhf hlt
          exact ⟨h1.1, h1.2⟩
      · exact ptrTarget_heap copy hc op st h hwf hhf hlt
    | .slice os =>
      simp only
      split
      · split
        · exact ⟨HeapExtends_refl hwf hhf, fun c hcs => by simp at hcs⟩
        · have h1 := sliceBacking_heap copy hc os
            ⟨st.ptrLevel, RefId.sliceId os :: st.ptrSeen⟩ h hwf hhf hlt
          exact ⟨h1.1, h1.2⟩
      · exact sliceBacking_heap copy hc os st h hwf hhf hlt
    | .map om =>
      simp only
      split
      · split
        · exact ⟨HeapExtends_refl hwf hhf, fun c hcs => by simp at hcs⟩
        · have h1 := mapTable_heap copy hc om
            ⟨st.ptrLevel, RefId.mapId om :: st.ptrSeen⟩ h hwf hhf hlt
          exact ⟨h1.1, h1.2⟩
      · exact mapTable_heap copy hc om st h hwf hhf hlt

/-- `copyRecursive` satisfies the heap contract at any fuel: whatever it
allocates is fresh and self-contained, old cells are untouched, and a
successful copy refers only to freshly allocated storage. -/
theorem copyRecursive_heap : ∀ fuel : Nat, CopySpec (copyRecursive fuel) := by
  intro fuel
  induction fuel with
  | zero =>
    intro v st h hwf hhf hfv hlt
    exact ⟨HeapExtends_refl hwf hhf, fun c hcs => by simp [copyRecursive] at hcs⟩
  | succ fuel ih =>
    intro v st h hwf hhf hfv hlt
    simp only [copyRecursive]
    have hb := copyBody_heap (copyRecursive fuel) ih v ⟨st.ptrLevel + 1, st.ptrSeen⟩ h
      hwf hhf hfv hlt
    exact ⟨hb.1, hb.2⟩

/-- A heap location is reachable from a value: through the pointer target,
slice backing and map table cells it refers to, and through subvalues.
Opaque-shared identifiers and the timestamp's time-zone reference are not
heap locations and do not appear. -/
inductive Reach (h : Heap) : Val → Nat → Prop where
  | ptrHere (l : Nat) : Reach h (.ptr (some l)) l
  | ptrInner {l l' : Nat} {w : Val} :
      lookupC h l = some (.cell w) → Reach h w l' → Reach h (.ptr (some l)) l'
  | sliceHere (l len : Nat) : Reach h (.slice (some (l, len))) l
  | sliceInner {l len l' : Nat} {bs : List Val} {w : Val} :
      lookupC h l = some (.cells bs) → w ∈ bs → Reach h w l' →
      Reach h (.slice (some (l, len))) l'
  | mapHere (l : Nat) : Reach h (.map (some l)) l
  | mapKey {l l' : Nat} {ps : List (Val × Val)} {p : Val × Val} :
      lookupC h l = some (.table ps) → p ∈ ps → Reach h p.1 l' → Reach h (.map (some l)) l'
  | mapVal {l l' : Nat} {ps : List (Val × Val)} {p : Val × Val} :
      lookupC h l = some (.table ps) → p ∈ ps → Reach h p.2 l' → Reach h (.map (some l)) l'
  | arrayInner {vs : List Val} {w : Val} {l : Nat} :
      w ∈ vs → Reach h w l → Reach h (.array vs) l
  | structInner {fs : List (Bool × Val)} {f : Bool × Val} {l : Nat} :
      f ∈ fs → Reach h f.2 l → Reach h (.struct fs) l
  | ifaceInner {w : Val} {l : Nat} : Reach h w l → Reach h (.iface (some w)) l
  | customInner {w : Val} {l : Nat} : Reach h w l → Reach h (.custom (.ok w)) l

/-- In a heap whose cells at or above `n` refer only to locations at or above
`n`, everything reachable from a value whose own locations are at or above
`n` stays at or above `n` (freshly allocated storage is self-contained). -/
theorem reach_ge {h : Heap} {n : Nat}
    (hcells : ∀ l c, n ≤ l → lookupC h l = some c → LocsGE n (cellLocs c)) :
    ∀ {v : Val} {l : Nat}, Reach h v l → LocsGE n (valLocs v) → n ≤ l := by
  intro v l hr
  induction hr with
  | ptrHere l =>
    intro hv
    exact hv l (by simp [valLocs])
  | @ptrInner l l' w hlook hr ih =>
    intro hv
    have hl : n ≤ l := hv l (by simp [valLocs])
    exact ih (hcells l _ hl hlook)
  | sliceHere l len =>
    intro hv
    exact hv l (by simp [valLocs])
  | @sliceInner l len l' bs w hlook hmem hr ih =>
    intro hv
    have hl : n ≤ l := hv l (by simp [valLocs])
    have hbs : LocsGE n (listLocs bs) := hcells l _ hl hlook
    exact ih (fun x hx => hbs x (mem_listLocs_of_mem hmem hx))
  | mapHere l =>
    intro hv
    exact hv l (by simp [valLocs])
  | @mapKey l l' ps p hlook hmem hr ih =>
    intro hv
    have hl : n ≤ l := hv l (by simp [valLocs])
    have hps : LocsGE n (pairLocs ps) := hcells l _ hl hlook
    exact ih (fun x hx => hps x (mem_pairLocs_fst hmem hx))
  | @mapVal l l' ps p hlook hmem hr ih =>
    intro hv
    have hl : n ≤ l := hv l (by simp [valLocs])
    have hps : LocsGE n (pairLocs ps) := hcells l _ hl hlook
    exact ih (fun x hx => hps x (mem_pairLocs_snd hmem hx))
  | @arrayInner vs w l hmem hr ih =>
    intro hv
    exact ih (fun x hx => hv x (mem_listLocs_of_mem hmem hx))
  | @structInner fs f l hmem hr ih =>
    intro hv
    exact ih (fun x hx => hv x (mem_fieldLocs_of_mem hmem hx))
  | @ifaceInner w l hr ih =>
    intro hv
    exact ih (fun x hx => hv x hx)
  | @customInner w l hr ih =>
    intro hv
    exact ih (fun x hx => hv x hx)

/-- In a heap whose cells below `n` refer only to locations below `n`,
everything reachable from a value whose own locations are below `n` stays
below `n` (the original object graph is untouched by fresh allocation). -/
theorem reach_lt {h : Heap} {n : Nat}
    (hcells : ∀ l c, lookupC h l = some c → l < n → LocsLT n (cellLocs c)) :
    ∀ {v : Val} {l : Nat}, Reach h v l → LocsLT n (valLocs v) → l < n := by
  intro v l hr
  induction hr with
  | ptrHere l =>
    intro hv
    exact hv l (by simp [valLocs])
  | @ptrInner l l' w hlook hr ih =>
    intro hv
    have hl : l < n := hv l (by simp [valLocs])
    exact ih (hcells l _ hlook hl)
  | sliceHere l len =>
    intro hv
    exact hv l (by simp [valLocs])
  | @sliceInner l len l' bs w hlook hmem hr ih =>
    intro hv
    have hl : l < n := hv l (by simp [valLocs])
    have hbs : LocsLT n (listLocs bs) := hcells l _ hlook hl
    exact ih (fun x hx => hbs x (mem_listLocs_of_mem hmem hx))
  | mapHere l =>
    intro hv
    exact hv l (by simp [valLocs])
  | @mapKey l l' ps p hlook hmem hr ih =>
    intro hv
    have hl : l < n := hv l (by simp [valLocs])
    have hps : LocsLT n (pairLocs ps) := hcells l _ hlook hl
    exact ih (fun x hx => hps x (mem_pairLocs_fst hmem hx))
  | @mapVal l l' ps p hlook hmem hr ih =>
    intro hv
    have hl : l < n := hv l (by simp [valLocs])
    have hps : LocsLT n (pairLocs ps) := hcells l _ hlook hl
    exact ih (fun x hx => hps x (mem_pairLocs_snd hmem hx))
  | @arrayInner vs w l hmem hr ih =>
    intro hv
    exact ih (fun x hx => hv x (mem_listLocs_of_mem hmem hx))
  | @structInner fs f l hmem hr ih =>
    intro hv
    exact ih (fun x hx => hv x (mem_fieldLocs_of_mem hmem hx))
  | @ifaceInner w l hr ih =>
    intro hv
    exact ih (fun x hx => hv x hx)
  | @customInner w l hr ih =>
    intro hv
    exact ih (fun x hx => hv x hx)

/-- C1 (amended: hook-free inputs — a custom `DeepCopy` hook may deliberately
return memory shared with the source, see the counterexample): for a
wellformed, hook-free input, a successful `Copy` yields a value all of whose
reachable mutable locations are freshly allocated (at or above the old
allocation counter) while everything reachable from the source stays below
it; hence copy and source share no mutable storage.  Functions, channels and
the timestamp's time-zone reference are not heap storage (shared by design)
and are outside `Reach` by construction. -/
theorem c1_independence :
    ∀ (v c : Val) (h h' : Heap),
      HeapWF h → HeapHookFree h → hookFree v = true → LocsLT h.next (valLocs v) →
      Copy (some v) h = (.ok (some c), h') →
      (∀ l, Reach h' c l → h.next ≤ l) ∧
      (∀ l, Reach h' v l → l < h.next) ∧
      (∀ l, ¬ (Reach h' c l ∧ Reach h' v l)) := by
  intro v c h h' hwf hhf hfv hlt hcopy
  simp only [Copy] at hcopy
  split at hcopy
  · next c2 st2 h2 heqR =>
    simp only [Prod.mk.injEq, Except.ok.injEq, Option.some.injEq] at hcopy
    obtain ⟨hcc, hhh⟩ := hcopy
    rw [hcc, hhh] at heqR
    have spec := copyRecursive_heap copyFuel v ⟨0, []⟩ h hwf hhf hfv hlt
    rw [heqR] at spec
    obtain ⟨hext, hok⟩ := spec
    obtain ⟨hcf, hcge, hclt⟩ := hok c rfl
    obtain ⟨hn, hold, hwf', hhf', hfresh⟩ := hext
    have hcopyside : ∀ l, Reach h' c l → h.next ≤ l := by
      intro l hr
      exact reach_ge (fun l' c' hge hlk => hfresh l' c' hge hlk) hr hcge
    have hsrcside : ∀ l, Reach h' v l → l < h.next := by
      intro l hr
      refine reach_lt ?_ hr hlt
      intro l' c' hlk hlow
      rw [hold l' hlow] at hlk
      exact (HeapWF_lookup hwf hlk).2
    refine ⟨hcopyside, hsrcside, ?_⟩
    intro l ⟨hrc, hrv⟩
    have h1 := hcopyside l hrc
    have h2 := hsrcside l hrv
    omega
  · next e st2 h2 heqR =>
    simp at hcopy

/-- A one-cell heap used by the C1 counterexample and witness. -/
def hookHeap : Heap := ⟨1, [(0, .cell (.prim 5))]⟩

/-- C1 counterexample: a value whose type implements the custom hook, whose
`DeepCopy` deliberately returns a pointer to existing storage (location 0).
`Copy` returns that pointer verbatim: the copy reaches location 0, the source
reaches location 0, and location 0 predates the call — the copy shares
mutable storage with the source, so the claim's exception list (functions,
channels, the time-zone reference) is incomplete without the hook. -/
theorem c1_counterexample :
    Copy (some (.custom (.ok (.ptr (some 0))))) hookHeap =
      (.ok (some (.ptr (some 0))), hookHeap) ∧
    Reach hookHeap (.ptr (some 0)) 0 ∧
    Reach hookHeap (.custom (.ok (.ptr (some 0)))) 0 ∧
    0 < hookHeap.next := by
  refine ⟨?_, Reach.ptrHere 0, Reach.customInner (Reach.ptrHere 0), by decide⟩
  simp only [Copy]
  rw [show copyFuel = 1501 + 1 from rfl]
  rw [step_custom_ok 1501 (.ptr (some 0)) ⟨0, []⟩ hookHeap (by decide)]

/-- Witness for C1 at a concrete input: copying a pointer to an integer cell
yields a pointer to a fresh cell; nothing reachable is shared. -/
theorem c1_independence_witness :
    HeapWF hookHeap ∧ HeapHookFree hookHeap ∧ hookFree (.ptr (some 0)) = true ∧
    LocsLT hookHeap.next (valLocs (.ptr (some 0))) ∧
    Copy (some (.ptr (some 0))) hookHeap =
      (.ok (some (.ptr (some 1))), ⟨2, [(1, .cell (.prim 5)), (0, .cell (.prim 5))]⟩) ∧
    ((∀ l, Reach ⟨2, [(1, .cell (.prim 5)), (0, .cell (.prim 5))]⟩ (.ptr (some 1)) l →
        hookHeap.next ≤ l) ∧
     (∀ l, Reach ⟨2, [(1, .cell (.prim 5)), (0, .cell (.prim 5))]⟩ (.ptr (some 0)) l →
        l < hookHeap.next) ∧
     (∀ l, ¬ (Reach ⟨2, [(1, .cell (.prim 5)), (0, .cell (.prim 5))]⟩ (.ptr (some 1)) l ∧
        Reach ⟨2, [(1, .cell (.prim 5)), (0, .cell (.prim 5))]⟩ (.ptr (some 0)) l))) :=
  ⟨by decide, by decide, rfl, by decide, rfl,
    c1_independence (.ptr (some 0)) (.ptr (some 1)) hookHeap
      ⟨2, [(1, .cell (.prim 5)), (0, .cell (.prim 5))]⟩
      (by decide) (by decide) rfl (by decide) rfl⟩

end DeepCopy
